import Mathlib

/-!
Verification of the operator-execution core of pegasus
(`src/research/gaia-x/pegasus/pegasus/src/operator/mod.rs`).

The Rust source is shallowly embedded: each Rust type and method used by the
claims is translated into an executable Lean definition.  External collaborator
types that are declared outside this file's source (`Tag`, `Weight`,
`TidyTagMap`, `IntSet`, `EndScope`, `CancelScope`, `EndSignal`, `InputProxy`,
`OutputProxy`, `JobExecError`) are modelled from the specification's data model
and boundary contracts; every such definition carries a doc comment saying so.
-/

/-- Modelled from the spec: a `Tag` is an ordered sequence of integer indices
identifying a nested scope path; its `length` is the nesting depth (the source
type `crate::Tag` is outside the excerpt). -/
abbrev Tag := List Nat

/-- Modelled from the spec: `Weight` is an associative, commutative, mergeable
progress value ("counts/witnesses contributed by upstream producers"); it is
modelled as a natural-number count (the source type `crate::progress::Weight`
is outside the excerpt). -/
abbrev Weight := Nat

/-- Modelled from the spec: `merge(a, b)` is the order-independent merge of two
weights; with counts it is addition, which is associative and commutative as
the spec requires. -/
def Weight.merge (a b : Weight) : Weight := a + b

/-- Modelled from the spec: `EndScope { port, tag, weight }` is emitted by an
input when it observes end-of-stream for `tag` arriving through `port` (source
type `crate::api::notification::EndScope`, outside the excerpt). -/
structure EndScope where
  port : Nat
  tag : Tag
  weight : Weight
deriving DecidableEq, Repr

/-- Modelled from the spec: `CancelScope { port, tag }` is emitted when the
consumer attached to output `port` requests no further data for `tag` (source
type `crate::api::notification::CancelScope`, outside the excerpt). -/
structure CancelScope where
  port : Nat
  tag : Tag
deriving DecidableEq, Repr

/-- Modelled from the spec: the completion signal (tag plus merged weight) that
`on_notify` derives and delivers to outputs (source type
`crate::progress::EndSignal`, outside the excerpt; built by
`EndSignal::new(tag, weight)`). -/
structure EndSignal where
  tag : Tag
  weight : Weight
deriving DecidableEq, Repr

/-- Modelled from the spec: an execution error; `retryable` mirrors
`JobExecError::can_be_retried`, `code` just keeps distinct errors apart
(source type `crate::errors::JobExecError`, outside the excerpt). -/
structure JobExecError where
  retryable : Bool
  code : Nat
deriving DecidableEq, Repr

/-- Modelled from the spec: a tag-keyed mapping (one per nesting depth), as an
association list (source type `crate::tag::tools::map::TidyTagMap`, outside
the excerpt). -/
abbrev TagMap (α : Type) := List (Tag × α)

/-- Rust `TidyTagMap::remove`: returns the removed value (if the key was present)
together with the map without that key. -/
def TagMap.extract {α : Type} : TagMap α → Tag → Option α × TagMap α
  | [], _ => (none, [])
  | (k, v) :: rest, t =>
    if k = t then (some v, rest)
    else
      let r := TagMap.extract rest t
      (r.1, (k, v) :: r.2)

/-- Rust `TidyTagMap::insert`: insert a key/value pair, replacing any previous
binding of the key. -/
def TagMap.insert {α : Type} (m : TagMap α) (t : Tag) (v : α) : TagMap α :=
  (t, v) :: (TagMap.extract m t).2

/-- Lookup in a `TagMap` (observer used to state properties). -/
def TagMap.get {α : Type} : TagMap α → Tag → Option α
  | [], _ => none
  | (k, v) :: rest, t => if k = t then some v else TagMap.get rest t

/-- Rust `IntSet::insert` when the returned `bool` is not inspected: add a port to a
port set, idempotently.  Port sets (`IntSet<u64>`) are modelled as duplicate
free lists. -/
def insertPort (p : Nat) (s : List Nat) : List Nat :=
  if p ∈ s then s else p :: s

/-- Rust `MultiInputsMerge` (fan-in merge barrier): the configured input count and
one tag-keyed mapping per nesting depth, each entry holding the partially
merged `EndScope` and the set of input ports recorded so far. -/
structure MultiInputsMerge where
  input_size : Nat
  end_merge : List (TagMap (EndScope × List Nat))
deriving DecidableEq, Repr

/-- Rust `MultiInputsMerge::new(input_size, scope_level)`: one empty map per depth
`0 ..= scope_level`. -/
def MultiInputsMerge.new (input_size : Nat) (scope_level : Nat) : MultiInputsMerge :=
  { input_size := input_size, end_merge := List.replicate (scope_level + 1) [] }

/-- Rust `MultiInputsMerge::merge_end` (mod.rs lines 67-91).  The depth slot is read
with `remove`; if an entry for the tag exists and the port is new, the weight
is merged and the port recorded, completing (entry stays removed) when the
recorded set reaches `input_size`, otherwise the updated entry is stored back.
If the port was already recorded the branch returns `None` without storing the
entry back (so the removed entry is dropped).  With no entry, a fresh entry
holding the incoming `EndScope` and the singleton port set is stored. -/
def MultiInputsMerge.merge_end (self : MultiInputsMerge) (n : EndScope) :
    Option EndScope × MultiInputsMerge :=
  let idx := n.tag.length
  let slot := self.end_merge.getD idx []
  match TagMap.extract slot n.tag with
  | (some (merged, count), slotRest) =>
    if n.port ∈ count then
      (none, { self with end_merge := self.end_merge.set idx slotRest })
    else
      let count2 := n.port :: count
      let merged2 := { merged with weight := Weight.merge merged.weight n.weight }
      if count2.length = self.input_size then
        (some merged2, { self with end_merge := self.end_merge.set idx slotRest })
      else
        (none,
         { self with
             end_merge := self.end_merge.set idx (TagMap.insert slotRest n.tag (merged2, count2)) })
  | (none, _) =>
    (none,
     { self with end_merge := self.end_merge.set idx (TagMap.insert slot n.tag (n, [n.port])) })

/-- Observer: the entry stored in the fan-in barrier for a tag (at the tag's
depth), if any. -/
def MultiInputsMerge.endEntry (m : MultiInputsMerge) (t : Tag) :
    Option (EndScope × List Nat) :=
  TagMap.get (m.end_merge.getD t.length []) t

/-- Observer: the set of input ports recorded in the fan-in barrier for a tag
(empty when no entry exists). -/
def MultiInputsMerge.endRecordedPorts (m : MultiInputsMerge) (t : Tag) : List Nat :=
  ((m.endEntry t).map Prod.snd).getD []

/-- Rust `MultiOutputsMerge` (fan-out merge barrier): the configured output count,
the scope level, and one tag-keyed mapping per nesting depth, each entry
holding the set of output ports that asked to cancel the tag. -/
structure MultiOutputsMerge where
  output_size : Nat
  scope_level : Nat
  cancel_merge : List (TagMap (List Nat))
deriving DecidableEq, Repr

/-- Rust `MultiOutputsMerge::new(output_size, scope_level)`. -/
def MultiOutputsMerge.new (output_size : Nat) (scope_level : Nat) : MultiOutputsMerge :=
  { output_size := output_size, scope_level := scope_level,
    cancel_merge := List.replicate (scope_level + 1) [] }

/-- Rust `MultiOutputsMerge::merge_cancel` (mod.rs lines 111-130).  The depth slot
is read with `remove`; if an entry exists the port is inserted (idempotently)
and, when `output_size - set size` reaches `0`, the tag is returned with the
entry removed, otherwise the entry is stored back.  With no entry a singleton
entry is stored.  (`left` uses `usize` subtraction; on states reachable from
`new` the stored set is always smaller than `output_size`, so truncated `Nat`
subtraction agrees with it.) -/
def MultiOutputsMerge.merge_cancel (self : MultiOutputsMerge) (n : CancelScope) :
    Option Tag × MultiOutputsMerge :=
  let level := n.tag.length
  let slot := self.cancel_merge.getD level []
  match TagMap.extract slot n.tag with
  | (some in_merge, slotRest) =>
    let in2 := insertPort n.port in_merge
    let left := self.output_size - in2.length
    if left = 0 then
      (some n.tag, { self with cancel_merge := self.cancel_merge.set level slotRest })
    else
      (none,
       { self with cancel_merge := self.cancel_merge.set level (TagMap.insert slotRest n.tag in2) })
  | (none, _) =>
    (none,
     { self with cancel_merge := self.cancel_merge.set level (TagMap.insert slot n.tag [n.port]) })

/-- Observer: the set of output ports recorded in the fan-out barrier for a
tag (empty when no entry exists). -/
def MultiOutputsMerge.cancelRecordedPorts (m : MultiOutputsMerge) (t : Tag) : List Nat :=
  (TagMap.get (m.cancel_merge.getD t.length []) t).getD []

/-- Rust `DefaultNotify` (mod.rs lines 133-141): the notification strategy chosen
from the port cardinalities. -/
inductive DefaultNotify where
  | SISO : DefaultNotify
  | MISO : MultiInputsMerge → DefaultNotify
  | SIMO : MultiOutputsMerge → DefaultNotify
  | MIMO : MultiInputsMerge → MultiOutputsMerge → DefaultNotify
deriving DecidableEq, Repr

/-- Rust `DefaultNotify::new` (mod.rs lines 144-159). -/
def DefaultNotify.new (input_size output_size scope_level : Nat) : DefaultNotify :=
  if input_size > 1 then
    if output_size > 1 then
      DefaultNotify.MIMO (MultiInputsMerge.new input_size scope_level)
        (MultiOutputsMerge.new output_size scope_level)
    else
      DefaultNotify.MISO (MultiInputsMerge.new input_size scope_level)
  else
    if output_size > 1 then
      DefaultNotify.SIMO (MultiOutputsMerge.new output_size scope_level)
    else
      DefaultNotify.SISO

/-- Rust `DefaultNotify::merge_end` (mod.rs lines 161-167): `SISO`/`SIMO` pass the
end signal straight through; `MISO`/`MIMO` delegate to the fan-in barrier. -/
def DefaultNotify.merge_end : DefaultNotify → EndScope → Option EndScope × DefaultNotify
  | DefaultNotify.SISO, e => (some e, DefaultNotify.SISO)
  | DefaultNotify.SIMO mom, e => (some e, DefaultNotify.SIMO mom)
  | DefaultNotify.MISO mim, e =>
    let r := mim.merge_end e
    (r.1, DefaultNotify.MISO r.2)
  | DefaultNotify.MIMO mim mom, e =>
    let r := mim.merge_end e
    (r.1, DefaultNotify.MIMO r.2 mom)

/-- Rust `DefaultNotify::merge_cancel` (mod.rs lines 169-175): `SISO`/`MISO` pass
the tag straight through; `SIMO`/`MIMO` delegate to the fan-out barrier. -/
def DefaultNotify.merge_cancel : DefaultNotify → CancelScope → Option Tag × DefaultNotify
  | DefaultNotify.SISO, c => (some c.tag, DefaultNotify.SISO)
  | DefaultNotify.MISO mim, c => (some c.tag, DefaultNotify.MISO mim)
  | DefaultNotify.SIMO mom, c =>
    let r := mom.merge_cancel c
    (r.1, DefaultNotify.SIMO r.2)
  | DefaultNotify.MIMO mim mom, c =>
    let r := mom.merge_cancel c
    (r.1, DefaultNotify.MIMO mim r.2)

example :
    (MultiInputsMerge.new 2 0).merge_end ⟨0, [], 1⟩ =
      (none, ⟨2, [[([], (⟨0, [], 1⟩, [0]))]]⟩) := by decide

example :
    (((MultiInputsMerge.new 2 0).merge_end ⟨0, [], 1⟩).2.merge_end ⟨1, [], 2⟩).1 =
      some ⟨0, [], 3⟩ := by decide

/-- Modelled from the spec: a block guard as reported by
`OutputProxy::get_blocks` — a capacity-blocked tag with per-input block flags
(`has_block(index)` / `block(index, handle)`); the opaque handle is modelled by
the flag itself. -/
structure BlockGuard where
  tag : Tag
  flags : List Bool
deriving DecidableEq, Repr

/-- Modelled from the spec: the input-side boundary state.  `ends` is the queue
of pending end-of-stream records served by `extract_end` (each record carrying
`{tag, weight}`), `exhaust` is what `is_exhaust` reports, `outstanding` is what
`has_outstanding` reports, `blocked` records the tags passed to `block`, and
`cancelled` records the tags passed to `cancel_scope`. -/
structure InputProxy where
  ends : List (Tag × Weight)
  exhaust : Bool
  outstanding : Bool
  blocked : List Tag
  cancelled : List Tag
deriving DecidableEq, Repr

/-- Modelled from the spec: the output-side boundary state.  `blocks` is what
`get_blocks` reports, `notified` records the signals delivered through
`notify_end`, `cancelled` records the tags passed to `cancel`, `flushed`
counts successful `flush` calls, `closed` records `close`; the `*_err` fields
are the (fixed) outcomes the data plane returns for the fallible boundary
calls (`none` = success). -/
structure OutputProxy where
  blocks : List BlockGuard
  notified : List EndSignal
  cancelled : List Tag
  flushed : Nat
  closed : Bool
  unblock_err : Option JobExecError
  notify_err : Option JobExecError
  flush_err : Option JobExecError
  cancel_err : Option JobExecError
  close_err : Option JobExecError
deriving DecidableEq, Repr

/-- An output proxy with empty state and all boundary calls succeeding. -/
def OutputProxy.fresh : OutputProxy :=
  { blocks := [], notified := [], cancelled := [], flushed := 0, closed := false,
    unblock_err := none, notify_err := none, flush_err := none, cancel_err := none,
    close_err := none }

instance : Inhabited OutputProxy := ⟨OutputProxy.fresh⟩

/-- Rust `OutputProxy::notify_end(sig)`: deliver a completion signal to the output;
on success the signal is recorded. -/
def OutputProxy.notify_end (o : OutputProxy) (sig : EndSignal) :
    Option JobExecError × OutputProxy :=
  if o.notify_err = none then (none, { o with notified := o.notified ++ [sig] })
  else (o.notify_err, o)

/-- The loop of `DefaultNotifyOperator::on_notify` (mod.rs lines 196-201)
linearised over an explicit index sequence: `outputs[i].notify_end(sig)?` for
each listed index, aborting at the first error.  Returns the error (if any),
the updated outputs, and the ordered delivery log. -/
def notifySeq (outputs : List OutputProxy) (sig : EndSignal) :
    List Nat → Option JobExecError × List OutputProxy × List (Nat × EndSignal)
  | [] => (none, outputs, [])
  | i :: rest =>
    let o := outputs.getD i default
    if o.notify_err = none then
      let outputs2 := outputs.set i { o with notified := o.notified ++ [sig] }
      let r := notifySeq outputs2 sig rest
      (r.1, r.2.1, (i, sig) :: r.2.2)
    else (o.notify_err, outputs, [])

/-- Rust `DefaultNotifyOperator::on_notify` (mod.rs lines 191-207): with at least
one output, run the end through the selected merge strategy; if a merged
signal results, build `EndSignal::new(tag, weight)` and deliver it with
`notify_end` to outputs `1 .. len` first and to output `0` last.  Returns the
error (if any), the updated merge state, the updated outputs, and the ordered
delivery log. -/
def DefaultNotifyOperator.on_notify (notify : DefaultNotify) (n : EndScope)
    (outputs : List OutputProxy) :
    Option JobExecError × DefaultNotify × List OutputProxy × List (Nat × EndSignal) :=
  if outputs.isEmpty then (none, notify, outputs, [])
  else
    let r0 := notify.merge_end n
    match r0.1 with
    | some e =>
      let sig : EndSignal := { tag := e.tag, weight := e.weight }
      let r := notifySeq outputs sig ((List.range outputs.length).drop 1 ++ [0])
      (r.1, r0.2, r.2.1, r.2.2)
    | none => (none, r0.2, outputs, [])

/-- Rust `InputProxy::cancel_scope(tag)`: record the cancellation request on the
input (infallible at the boundary). -/
def InputProxy.cancel_scope (i : InputProxy) (t : Tag) : InputProxy :=
  { i with cancelled := i.cancelled ++ [t] }

/-- Rust `DefaultNotifyOperator::on_cancel` (mod.rs lines 209-218): with at least
one input, run the cancel through the selected merge strategy; if the tag is
fully agreed upon, deliver `cancel_scope` to every input.  Always returns
`Ok`. -/
def DefaultNotifyOperator.on_cancel (notify : DefaultNotify) (n : CancelScope)
    (inputs : List InputProxy) : DefaultNotify × List InputProxy :=
  if inputs.isEmpty then (notify, inputs)
  else
    let r0 := notify.merge_cancel n
    match r0.1 with
    | some t => (r0.2, inputs.map (fun i => i.cancel_scope t))
    | none => (r0.2, inputs)

/-- Rust `Operator` (mod.rs lines 263-270): ports, the (default-notify wrapped)
core's merge state, the cumulative fire count and the cumulative busy time.
The plain computation inside the core is an external plug-in; its single
per-fire outcome is passed to `fire` as data. -/
structure Operator where
  inputs : List InputProxy
  outputs : List OutputProxy
  notify : DefaultNotify
  fire_times : Nat
  exec_st : Nat
deriving DecidableEq, Repr

/-- Rust `Operator::is_finished` (mod.rs lines 282-290): false as soon as some
output still reports capacity blocks; otherwise true iff there are no inputs
or all inputs are exhausted. -/
def Operator.is_finished (op : Operator) : Bool :=
  if op.outputs.all (fun o => o.blocks.isEmpty) then
    op.inputs.isEmpty || op.inputs.all (fun i => i.exhaust)
  else
    false

/-- Step 1 of `fire` (mod.rs lines 308-310): `output.try_unblock()?` for every
output in order; the data-plane effect of a successful `try_unblock` is
outside this core, so only the first error (if any) is observable here. -/
def firstUnblockErr : List OutputProxy → Option JobExecError
  | [] => none
  | o :: rest =>
    if o.unblock_err = none then firstUnblockErr rest
    else o.unblock_err

/-- Rust `bs.block(index, res)` with `res = input.block(bs.tag())` for one block
guard over the inputs, starting at input index `idx` (inner two loops of step
3 of `fire`, mod.rs lines 318-324): every input not yet flagged on the guard
is asked to block the tag and the guard is flagged for it. -/
def regInputs : List InputProxy → Nat → BlockGuard → List InputProxy × BlockGuard
  | [], _, bs => ([], bs)
  | inp :: rest, idx, bs =>
    if bs.flags.getD idx false then
      let r := regInputs rest (idx + 1) bs
      (inp :: r.1, r.2)
    else
      let inp2 := { inp with blocked := inp.blocked ++ [bs.tag] }
      let bs2 := { bs with flags := bs.flags.set idx true }
      let r := regInputs rest (idx + 1) bs2
      (inp2 :: r.1, r.2)

/-- Step 3 of `fire` over one output's block guards. -/
def regBlocksOne (inputs : List InputProxy) :
    List BlockGuard → List InputProxy × List BlockGuard
  | [] => (inputs, [])
  | bs :: rest =>
    let r1 := regInputs inputs 0 bs
    let r2 := regBlocksOne r1.1 rest
    (r2.1, r1.2 :: r2.2)

/-- Step 3 of `fire` (mod.rs lines 316-326): register blocking dependencies
for every output's capacity-blocked tags. -/
def registerBlocks (inputs : List InputProxy) :
    List OutputProxy → List InputProxy × List OutputProxy
  | [] => (inputs, [])
  | o :: rest =>
    let r1 := regBlocksOne inputs o.blocks
    let r2 := registerBlocks r1.1 rest
    (r2.1, { o with blocks := r1.2 } :: r2.2)

/-- The `while let Some(end) = input.extract_end()` loop of step 5 of `fire`
(mod.rs lines 338-344) for one input: each pending end-of-stream record is
extracted, turned into `EndScope { port, tag, weight }` and run through
`on_notify`, aborting at the first error (already-extracted records stay
extracted).  Returns the error (if any), the merge state, the input's
remaining records and the outputs. -/
def drainEnds (notify : DefaultNotify) (port : Nat) :
    List (Tag × Weight) → List OutputProxy →
    Option JobExecError × DefaultNotify × List (Tag × Weight) × List OutputProxy
  | [], outs => (none, notify, [], outs)
  | (tag, w) :: rest, outs =>
    let r := DefaultNotifyOperator.on_notify notify { port := port, tag := tag, weight := w } outs
    if r.1 = none then drainEnds r.2.1 port rest r.2.2.1
    else (r.1, r.2.1, rest, r.2.2.1)

/-- Step 5 of `fire` (mod.rs lines 337-344): drain every input in port order.
On an error the remaining inputs are left untouched. -/
def drainAll (notify : DefaultNotify) (port : Nat) :
    List InputProxy → List OutputProxy →
    Option JobExecError × DefaultNotify × List InputProxy × List OutputProxy
  | [], outs => (none, notify, [], outs)
  | inp :: rest, outs =>
    let r := drainEnds notify port inp.ends outs
    let inp2 := { inp with ends := r.2.2.1 }
    if r.1 = none then
      let r2 := drainAll r.2.1 (port + 1) rest r.2.2.2
      (r2.1, r2.2.1, inp2 :: r2.2.2.1, r2.2.2.2)
    else (r.1, r.2.1, inp2 :: rest, r.2.2.2)

/-- Step 6 of `fire` (mod.rs lines 346-348): `output.flush()?` for every
output in order; outputs already flushed before an error keep their flush. -/
def flushAll : List OutputProxy → Option JobExecError × List OutputProxy
  | [] => (none, [])
  | o :: rest =>
    if o.flush_err = none then
      let r := flushAll rest
      (r.1, { o with flushed := o.flushed + 1 } :: r.2)
    else (o.flush_err, o :: rest)

/-- Steps 5-7 of `fire`: drain all pending end-of-stream records through the
notification path, flush every output, and return the remembered retryable
error `r` (if steps 5-6 themselves fail, their error returns instead). -/
def Operator.fireRest (op : Operator) (r : Option JobExecError) :
    Option JobExecError × Operator :=
  let d := drainAll op.notify 0 op.inputs op.outputs
  if d.1 = none then
    let f := flushAll d.2.2.2
    if f.1 = none then (r, { op with notify := d.2.1, inputs := d.2.2.1, outputs := f.2 })
    else (f.1, { op with notify := d.2.1, inputs := d.2.2.1, outputs := f.2 })
  else (d.1, { op with notify := d.2.1, inputs := d.2.2.1, outputs := d.2.2.2 })

/-- The body of `Operator::fire` (mod.rs lines 303-351) apart from the
`Finally` time guard: bump the fire count, try to unblock every output,
take the computation outcome (`recv` stands for the plug-in's
`on_receive` result this quantum), register blocking dependencies, return a
fatal error immediately, remember a retryable one, then drain ends and flush. -/
def Operator.fireBody (op : Operator) (recv : Option JobExecError) :
    Option JobExecError × Operator :=
  let op1 := { op with fire_times := op.fire_times + 1 }
  if firstUnblockErr op1.outputs = none then
    let reg := registerBlocks op1.inputs op1.outputs
    let op2 := { op1 with inputs := reg.1, outputs := reg.2 }
    match recv with
    | some err =>
      if err.retryable then op2.fireRest (some err)
      else (some err, op2)
    | none => op2.fireRest none
  else (firstUnblockErr op1.outputs, op1)

/-- Rust `Operator::fire` (mod.rs lines 303-351).  The `Finally` scope guard
(mod.rs lines 465-481) accumulates the quantum's elapsed wall-clock time into
`exec_st` on every exit path; wall-clock time is outside a pure model, so the
measured duration is the `elapsed` parameter. -/
def Operator.fire (op : Operator) (recv : Option JobExecError) (elapsed : Nat) :
    Option JobExecError × Operator :=
  let r := op.fireBody recv
  (r.1, { r.2 with exec_st := r.2.exec_st + elapsed })

/-- Rust `Operator::cancel(port, tag)` (mod.rs lines 353-363): tell the output to
stop emitting the tag, then route `CancelScope { port, tag }` through the
notification path's cancel handling. -/
def Operator.cancel (op : Operator) (port : Nat) (tag : Tag) :
    Option JobExecError × Operator :=
  let o := op.outputs.getD port default
  if o.cancel_err = none then
    let outputs2 := op.outputs.set port { o with cancelled := o.cancelled ++ [tag] }
    let r := DefaultNotifyOperator.on_cancel op.notify { port := port, tag := tag } op.inputs
    (none, { op with notify := r.1, inputs := r.2, outputs := outputs2 })
  else (o.cancel_err, op)

/-- Rust `Operator::close` (mod.rs lines 365-378): close every output (failures
logged, never escalated), then a `debug_worker!` statement reports the final
statistics.  That macro is defined outside this excerpt and the spec puts
logging plumbing out of scope; log-style macros evaluate their format
arguments only when the log level is enabled, so the report is placed behind
an explicit `debug_enabled` gate standing for that external configuration.
When the arguments are evaluated, the report divides `exec_st` by
`fire_times` in `u128`, which panics on a zero fire count — modelled as the
inner `none`; a skipped log statement is the outer `none`. -/
def Operator.close (op : Operator) (debug_enabled : Bool) :
    List OutputProxy × Option (Option (Nat × Nat × Nat)) :=
  let outs := op.outputs.map (fun o => { o with closed := true })
  let report :=
    if debug_enabled then
      some (if op.fire_times = 0 then none
        else some (op.exec_st, op.fire_times, op.exec_st / op.fire_times))
    else none
  (outs, report)

/-- Run a sequence of `EndScope` notifications through the fan-in barrier,
collecting each call's result. -/
def runEnds : MultiInputsMerge → List EndScope → List (Option EndScope) × MultiInputsMerge
  | m, [] => ([], m)
  | m, n :: rest =>
    let r := m.merge_end n
    let rr := runEnds r.2 rest
    (r.1 :: rr.1, rr.2)

/-- Run a sequence of `CancelScope` requests through the fan-out barrier,
collecting each call's result. -/
def runCancels : MultiOutputsMerge → List CancelScope → List (Option Tag) × MultiOutputsMerge
  | m, [] => ([], m)
  | m, n :: rest =>
    let r := m.merge_cancel n
    let rr := runCancels r.2 rest
    (r.1 :: rr.1, rr.2)

/-- Build the `EndScope` sequence for one tag from a list of
(port, weight) reports. -/
def mkEnds (t : Tag) (pws : List (Nat × Weight)) : List EndScope :=
  pws.map (fun pw => { port := pw.1, tag := t, weight := pw.2 })

/-- Build the `CancelScope` sequence for one tag from a list of ports. -/
def mkCancels (t : Tag) (ps : List Nat) : List CancelScope :=
  ps.map (fun p => { port := p, tag := t })

/-- One step of the fan-in barrier on the single entry a fixed tag `T` can
have when only `T` is ever reported: mirrors the branch structure of
`merge_end` on that entry. -/
def absEnd (T : Tag) (N : Nat) (p : Nat) (w : Weight) :
    Option (EndScope × List Nat) → Option EndScope × Option (EndScope × List Nat)
  | none => (none, some ({ port := p, tag := T, weight := w }, [p]))
  | some (merged, count) =>
    if p ∈ count then (none, none)
    else
      let merged2 := { merged with weight := Weight.merge merged.weight w }
      if count.length + 1 = N then (some merged2, none)
      else (none, some (merged2, p :: count))

/-- Iterate `absEnd` over a sequence of (port, weight) reports. -/
def absEndRun (T : Tag) (N : Nat) :
    Option (EndScope × List Nat) → List (Nat × Weight) →
    List (Option EndScope) × Option (EndScope × List Nat)
  | st, [] => ([], st)
  | st, pw :: rest =>
    let r := absEnd T N pw.1 pw.2 st
    let rr := absEndRun T N r.2 rest
    (r.1 :: rr.1, rr.2)

/-- The depth slot contents corresponding to an optional single entry for
tag `T`. -/
def encodeEnd (T : Tag) : Option (EndScope × List Nat) → TagMap (EndScope × List Nat)
  | none => []
  | some e => [(T, e)]

/-- A fan-in barrier state that is `MultiInputsMerge.new N sl` except for a
single (optional) entry for tag `T`; every state reachable from `new` by
reports for `T` alone has this shape. -/
def RepEnd (m : MultiInputsMerge) (N sl : Nat) (T : Tag)
    (st : Option (EndScope × List Nat)) : Prop :=
  m.input_size = N ∧
    m.end_merge = (List.replicate (sl + 1) ([] : TagMap (EndScope × List Nat))).set
      T.length (encodeEnd T st)

/-- The port set of an optional fan-in entry. -/
def stEndPorts (st : Option (EndScope × List Nat)) : List Nat :=
  (st.map Prod.snd).getD []

/-- One step of the fan-out barrier on the single entry a fixed tag `T` can
have when only `T` is ever cancelled: mirrors the branch structure of
`merge_cancel` on that entry. -/
def absCancel (T : Tag) (M : Nat) (p : Nat) :
    Option (List Nat) → Option Tag × Option (List Nat)
  | none => (none, some [p])
  | some s =>
    let s2 := insertPort p s
    if M - s2.length = 0 then (some T, none) else (none, some s2)

/-- Iterate `absCancel` over a sequence of ports. -/
def absCancelRun (T : Tag) (M : Nat) :
    Option (List Nat) → List Nat → List (Option Tag) × Option (List Nat)
  | st, [] => ([], st)
  | st, p :: rest =>
    let r := absCancel T M p st
    let rr := absCancelRun T M r.2 rest
    (r.1 :: rr.1, rr.2)

/-- The depth slot contents corresponding to an optional single cancel entry
for tag `T`. -/
def encodeCancel (T : Tag) : Option (List Nat) → TagMap (List Nat)
  | none => []
  | some s => [(T, s)]

/-- A fan-out barrier state that is `MultiOutputsMerge.new M sl` except for a
single (optional) entry for tag `T`; every state reachable from `new` by
cancels for `T` alone has this shape. -/
def RepCancel (m : MultiOutputsMerge) (M sl : Nat) (T : Tag)
    (st : Option (List Nat)) : Prop :=
  m.output_size = M ∧
    m.cancel_merge = (List.replicate (sl + 1) ([] : TagMap (List Nat))).set
      T.length (encodeCancel T st)

/-- The boundary-call outcomes and flush count of an output — everything an
output reports to `fire` other than its block list and delivery records. -/
def outMeta (o : OutputProxy) :
    Option JobExecError × Option JobExecError × Option JobExecError × Nat :=
  (o.unblock_err, o.notify_err, o.flush_err, o.flushed)

/-- All boundary calls used by a non-fatal `fire` succeed on these outputs. -/
def outputsOk (outs : List OutputProxy) : Prop :=
  ∀ o ∈ outs, o.unblock_err = none ∧ o.notify_err = none ∧ o.flush_err = none

instance (outs : List OutputProxy) : Decidable (outputsOk outs) := by
  unfold outputsOk
  infer_instance

/-- A fresh input with one pending end-of-stream record for the root scope
(used as a witness operator input). -/
def inputOneEnd : InputProxy :=
  { ends := [([], 1)], exhaust := false, outstanding := false, blocked := [], cancelled := [] }

/-- Witness operator: one input holding a pending end record, one fresh
output, single-input/single-output strategy. -/
def opW : Operator :=
  { inputs := [inputOneEnd], outputs := [OutputProxy.fresh],
    notify := DefaultNotify.new 1 1 0, fire_times := 0, exec_st := 0 }

/-- Witness operator that has never been fired. -/
def opZero : Operator :=
  { inputs := [], outputs := [OutputProxy.fresh],
    notify := DefaultNotify.new 1 1 0, fire_times := 0, exec_st := 0 }

/-- A retryable computation error (witness input). -/
def errRetry : JobExecError := { retryable := true, code := 7 }

/-! ### Basic lemmas about the map and set models -/

theorem TagMap.extract_fst_eq_get {α : Type} (m : TagMap α) (t : Tag) :
    (TagMap.extract m t).1 = TagMap.get m t := by
  induction m with
  | nil => rfl
  | cons kv rest ih =>
    obtain ⟨k, v⟩ := kv
    by_cases h : k = t <;> simp [TagMap.extract, TagMap.get, h, ih]

theorem TagMap.extract_insert_self {α : Type} (m : TagMap α) (t : Tag) (v : α) :
    TagMap.extract (TagMap.insert m t v) t = (some v, (TagMap.extract m t).2) := by
  simp [TagMap.insert, TagMap.extract]

theorem TagMap.get_insert_self {α : Type} (m : TagMap α) (t : Tag) (v : α) :
    TagMap.get (TagMap.insert m t v) t = some v := by
  simp [TagMap.insert, TagMap.get]

theorem listGetD_set_self {α : Type} (l : List α) (i : Nat) (x d : α) (h : i < l.length) :
    (l.set i x).getD i d = x := by
  induction l generalizing i with
  | nil => simp at h
  | cons a t ih =>
    cases i with
    | zero => simp
    | succ j => simpa using ih j (by simpa using h)

theorem listSet_oob {α : Type} (l : List α) (i : Nat) (x : α) (h : l.length ≤ i) :
    l.set i x = l := by
  induction l generalizing i with
  | nil => rfl
  | cons a t ih =>
    cases i with
    | zero => simp at h
    | succ j => simpa using ih j (by simpa using h)

theorem insertPort_mem_self (p : Nat) (s : List Nat) : p ∈ insertPort p s := by
  by_cases h : p ∈ s <;> simp [insertPort, h]

theorem insertPort_of_mem {p : Nat} {s : List Nat} (h : p ∈ s) : insertPort p s = s := by
  simp [insertPort, h]

/-! ### C1 — duplicate end report from an already-recorded port -/

/-- C1: the spec says a duplicate `merge_end` from an already-recorded port is
a no-op on the stored entry.  The code returns nothing but *removes* the
stored entry for the tag: with `input_size = 2`, after port 0 reports, a
duplicate report from port 0 returns `none` yet deletes the entry (its
recorded weight and port set), and a subsequent report from port 1 — at which
point both distinct ports have reported — no longer produces the merged end of
scope.  This contradicts the barrier's documented purpose, so it is a code
bug, exhibited here by evaluation. -/
theorem merge_end_duplicate_port_drops_entry :
    ((MultiInputsMerge.new 2 0).merge_end { port := 0, tag := [], weight := 1 }).1 = none ∧
    ((MultiInputsMerge.new 2 0).merge_end
        { port := 0, tag := [], weight := 1 }).2.endRecordedPorts [] = [0] ∧
    (((MultiInputsMerge.new 2 0).merge_end { port := 0, tag := [], weight := 1 }).2.merge_end
        { port := 0, tag := [], weight := 1 }).1 = none ∧
    (((MultiInputsMerge.new 2 0).merge_end { port := 0, tag := [], weight := 1 }).2.merge_end
        { port := 0, tag := [], weight := 1 }).2.endEntry [] = none ∧
    ((((MultiInputsMerge.new 2 0).merge_end { port := 0, tag := [], weight := 1 }).2.merge_end
        { port := 0, tag := [], weight := 1 }).2.merge_end
        { port := 1, tag := [], weight := 1 }).1 = none := by
  decide

/-! ### C6 — is_finished characterisation -/

/-- C6: `is_finished()` returns true iff no output has any pending
capacity-blocked tag and (the operator has no inputs, or every input reports
exhausted). -/
theorem is_finished_iff (op : Operator) :
    op.is_finished = true ↔
      ((∀ o ∈ op.outputs, o.blocks = []) ∧
        (op.inputs = [] ∨ ∀ i ∈ op.inputs, i.exhaust = true)) := by
  unfold Operator.is_finished
  by_cases hc : ∀ o ∈ op.outputs, o.blocks = []
  · rw [if_pos (by simpa [List.all_eq_true, List.isEmpty_iff] using hc)]
    constructor
    · intro h
      refine ⟨hc, ?_⟩
      simpa [List.isEmpty_iff, List.all_eq_true] using h
    · rintro ⟨-, h2⟩
      simpa [List.isEmpty_iff, List.all_eq_true] using h2
  · rw [if_neg (by simpa [List.all_eq_true, List.isEmpty_iff] using hc)]
    simp only [Bool.false_eq_true, false_iff, not_and]
    intro h1
    exact absurd h1 hc

/-! ### Close-time statistics report -/

/-- Whether closing a never-fired operator divides by zero depends entirely
on the logging gate: with debug logging enabled the report's arguments are
evaluated and `exec_st / fire_times` panics on a zero fire count (inner
`none`); with it disabled the statement is skipped and `close` completes
normally.  The gate itself lives in the `debug_worker!` macro outside this
excerpt, so neither outcome is unconditional. -/
theorem close_zero_fires_report_depends_on_log_gate (op : Operator)
    (h : op.fire_times = 0) :
    (op.close true).2 = some none ∧ (op.close false).2 = none := by
  constructor
  · simp [Operator.close, h]
  · simp [Operator.close]

theorem listGetD_oob {α : Type} (l : List α) (i : Nat) (d : α) (h : l.length ≤ i) :
    l.getD i d = d := by
  induction l generalizing i with
  | nil => simp
  | cons a t ih =>
    cases i with
    | zero => simp at h
    | succ j => simpa using ih j (by simpa using h)

/-! ### Shape lemmas: one equation per branch of the two barrier methods -/

theorem merge_cancel_eq_of_none (mom : MultiOutputsMerge) (c : CancelScope)
    (rest : TagMap (List Nat))
    (hx : TagMap.extract (mom.cancel_merge.getD c.tag.length []) c.tag = (none, rest)) :
    mom.merge_cancel c =
      (none,
        { mom with
            cancel_merge :=
              mom.cancel_merge.set c.tag.length
                (TagMap.insert (mom.cancel_merge.getD c.tag.length []) c.tag [c.port]) }) := by
  unfold MultiOutputsMerge.merge_cancel
  simp only []
  rw [hx]

theorem merge_cancel_eq_of_some_hit (mom : MultiOutputsMerge) (c : CancelScope)
    (s : List Nat) (rest : TagMap (List Nat))
    (hx : TagMap.extract (mom.cancel_merge.getD c.tag.length []) c.tag = (some s, rest))
    (h0 : mom.output_size - (insertPort c.port s).length = 0) :
    mom.merge_cancel c =
      (some c.tag,
        { mom with cancel_merge := mom.cancel_merge.set c.tag.length rest }) := by
  unfold MultiOutputsMerge.merge_cancel
  simp only []
  rw [hx]
  simp only []
  rw [if_pos h0]

theorem merge_cancel_eq_of_some_miss (mom : MultiOutputsMerge) (c : CancelScope)
    (s : List Nat) (rest : TagMap (List Nat))
    (hx : TagMap.extract (mom.cancel_merge.getD c.tag.length []) c.tag = (some s, rest))
    (h0 : ¬ (mom.output_size - (insertPort c.port s).length = 0)) :
    mom.merge_cancel c =
      (none,
        { mom with
            cancel_merge :=
              mom.cancel_merge.set c.tag.length
                (TagMap.insert rest c.tag (insertPort c.port s)) }) := by
  unfold MultiOutputsMerge.merge_cancel
  simp only []
  rw [hx]
  simp only []
  rw [if_neg h0]

theorem merge_end_eq_of_none (m : MultiInputsMerge) (n : EndScope)
    (rest : TagMap (EndScope × List Nat))
    (hx : TagMap.extract (m.end_merge.getD n.tag.length []) n.tag = (none, rest)) :
    m.merge_end n =
      (none,
        { m with
            end_merge :=
              m.end_merge.set n.tag.length
                (TagMap.insert (m.end_merge.getD n.tag.length []) n.tag (n, [n.port])) }) := by
  unfold MultiInputsMerge.merge_end
  simp only []
  rw [hx]

theorem merge_end_eq_of_dup (m : MultiInputsMerge) (n : EndScope) (merged : EndScope)
    (count : List Nat) (rest : TagMap (EndScope × List Nat))
    (hx : TagMap.extract (m.end_merge.getD n.tag.length []) n.tag = (some (merged, count), rest))
    (hp : n.port ∈ count) :
    m.merge_end n = (none, { m with end_merge := m.end_merge.set n.tag.length rest }) := by
  unfold MultiInputsMerge.merge_end
  simp only []
  rw [hx]
  simp only []
  rw [if_pos hp]

theorem merge_end_eq_of_hit (m : MultiInputsMerge) (n : EndScope) (merged : EndScope)
    (count : List Nat) (rest : TagMap (EndScope × List Nat))
    (hx : TagMap.extract (m.end_merge.getD n.tag.length []) n.tag = (some (merged, count), rest))
    (hp : n.port ∉ count) (hN : count.length + 1 = m.input_size) :
    m.merge_end n =
      (some { merged with weight := Weight.merge merged.weight n.weight },
        { m with end_merge := m.end_merge.set n.tag.length rest }) := by
  unfold MultiInputsMerge.merge_end
  simp only []
  rw [hx]
  simp only []
  rw [if_neg hp]
  simp only [List.length_cons]
  rw [if_pos hN]

theorem merge_end_eq_of_miss (m : MultiInputsMerge) (n : EndScope) (merged : EndScope)
    (count : List Nat) (rest : TagMap (EndScope × List Nat))
    (hx : TagMap.extract (m.end_merge.getD n.tag.length []) n.tag = (some (merged, count), rest))
    (hp : n.port ∉ count) (hN : ¬ (count.length + 1 = m.input_size)) :
    m.merge_end n =
      (none,
        { m with
            end_merge :=
              m.end_merge.set n.tag.length
                (TagMap.insert rest n.tag
                  ({ merged with weight := Weight.merge merged.weight n.weight },
                    n.port :: count)) }) := by
  unfold MultiInputsMerge.merge_end
  simp only []
  rw [hx]
  simp only []
  rw [if_neg hp]
  simp only [List.length_cons]
  rw [if_neg hN]

/-! ### C8 — repeated cancellation from the same port -/

/-- C8 (amended): as long as the first `merge_cancel(port, tag)` does not
itself complete the threshold (returns nothing), an immediately repeated
identical call is not double-counted by the fan-out barrier: it also returns
nothing and leaves the recorded-port set for the tag (hence its cardinality)
unchanged. -/
theorem merge_cancel_repeat_no_double_count (mom : MultiOutputsMerge) (c : CancelScope)
    (hM : 1 < mom.output_size) (h1 : (mom.merge_cancel c).1 = none) :
    ((mom.merge_cancel c).2.merge_cancel c).1 = none ∧
    ((mom.merge_cancel c).2.merge_cancel c).2.cancelRecordedPorts c.tag =
      (mom.merge_cancel c).2.cancelRecordedPorts c.tag := by
  rcases hx : TagMap.extract (mom.cancel_merge.getD c.tag.length []) c.tag with ⟨r0, rest0⟩
  cases r0 with
  | none =>
    have h1' := merge_cancel_eq_of_none mom c rest0 hx
    set M1 : MultiOutputsMerge :=
      { mom with
          cancel_merge :=
            mom.cancel_merge.set c.tag.length
              (TagMap.insert (mom.cancel_merge.getD c.tag.length []) c.tag [c.port]) }
      with hM1
    have h2 : (mom.merge_cancel c).2 = M1 := by rw [h1']
    rw [h2]
    have hMc : M1.cancel_merge =
        mom.cancel_merge.set c.tag.length
          (TagMap.insert (mom.cancel_merge.getD c.tag.length []) c.tag [c.port]) := by
      rw [hM1]
    have hsz : M1.output_size = mom.output_size := by rw [hM1]
    by_cases hlt : c.tag.length < mom.cancel_merge.length
    · have hslot1 : M1.cancel_merge.getD c.tag.length [] =
          TagMap.insert (mom.cancel_merge.getD c.tag.length []) c.tag [c.port] := by
        rw [hMc]
        exact listGetD_set_self _ _ _ _ hlt
      have hx2 : TagMap.extract (M1.cancel_merge.getD c.tag.length []) c.tag =
          (some [c.port], rest0) := by
        rw [hslot1, TagMap.extract_insert_self, hx]
      have h0 : ¬ (M1.output_size - (insertPort c.port [c.port]).length = 0) := by
        rw [hsz, insertPort_of_mem (List.mem_singleton.mpr rfl)]
        simp only [List.length_singleton]
        omega
      have h2' := merge_cancel_eq_of_some_miss M1 c [c.port] rest0 hx2 h0
      rw [h2']
      refine ⟨rfl, ?_⟩
      unfold MultiOutputsMerge.cancelRecordedPorts
      simp only []
      have hlen : c.tag.length < M1.cancel_merge.length := by
        rw [hMc]
        simpa using hlt
      rw [listGetD_set_self _ _ _ _ hlen, TagMap.get_insert_self, hslot1,
        TagMap.get_insert_self, insertPort_of_mem (List.mem_singleton.mpr rfl)]
    · have hoob := Nat.le_of_not_lt hlt
      have hnc : M1.cancel_merge = mom.cancel_merge := by
        rw [hMc]
        exact listSet_oob _ _ _ hoob
      have hx2 : TagMap.extract (M1.cancel_merge.getD c.tag.length []) c.tag =
          (none, rest0) := by
        rw [hnc]
        exact hx
      have h2' := merge_cancel_eq_of_none M1 c rest0 hx2
      rw [h2']
      refine ⟨rfl, ?_⟩
      unfold MultiOutputsMerge.cancelRecordedPorts
      simp only []
      have hoob2 : M1.cancel_merge.length ≤ c.tag.length := by
        rw [hnc]
        exact hoob
      rw [listSet_oob _ _ _ hoob2]
  | some s =>
    by_cases h0 : mom.output_size - (insertPort c.port s).length = 0
    · exfalso
      rw [merge_cancel_eq_of_some_hit mom c s rest0 hx h0] at h1
      exact Option.noConfusion h1
    · have h1' := merge_cancel_eq_of_some_miss mom c s rest0 hx h0
      have hlt : c.tag.length < mom.cancel_merge.length := by
        by_contra hge
        rw [listGetD_oob _ _ _ (Nat.le_of_not_lt hge)] at hx
        simp [TagMap.extract] at hx
      set M1 : MultiOutputsMerge :=
        { mom with
            cancel_merge :=
              mom.cancel_merge.set c.tag.length
                (TagMap.insert rest0 c.tag (insertPort c.port s)) }
        with hM1
      have h2 : (mom.merge_cancel c).2 = M1 := by rw [h1']
      rw [h2]
      have hMc : M1.cancel_merge =
          mom.cancel_merge.set c.tag.length
            (TagMap.insert rest0 c.tag (insertPort c.port s)) := by
        rw [hM1]
      have hsz : M1.output_size = mom.output_size := by rw [hM1]
      have hslot1 : M1.cancel_merge.getD c.tag.length [] =
          TagMap.insert rest0 c.tag (insertPort c.port s) := by
        rw [hMc]
        exact listGetD_set_self _ _ _ _ hlt
      have hx2 : TagMap.extract (M1.cancel_merge.getD c.tag.length []) c.tag =
          (some (insertPort c.port s), (TagMap.extract rest0 c.tag).2) := by
        rw [hslot1, TagMap.extract_insert_self]
      have hid : insertPort c.port (insertPort c.port s) = insertPort c.port s :=
        insertPort_of_mem (insertPort_mem_self c.port s)
      have h02 : ¬ (M1.output_size - (insertPort c.port (insertPort c.port s)).length = 0) := by
        rw [hsz, hid]
        exact h0
      have h2' := merge_cancel_eq_of_some_miss M1 c (insertPort c.port s)
        ((TagMap.extract rest0 c.tag).2) hx2 h02
      rw [h2']
      refine ⟨rfl, ?_⟩
      unfold MultiOutputsMerge.cancelRecordedPorts
      simp only []
      have hlen : c.tag.length < M1.cancel_merge.length := by
        rw [hMc]
        simpa using hlt
      rw [listGetD_set_self _ _ _ _ hlen, TagMap.get_insert_self, hslot1,
        TagMap.get_insert_self, hid]

/-- Witness for C8 at a concrete barrier: two outputs, first cancellation from
port 0 recorded, repeated call not double-counted. -/
theorem merge_cancel_repeat_no_double_count_witness :
    1 < (MultiOutputsMerge.new 2 0).output_size ∧
    ((MultiOutputsMerge.new 2 0).merge_cancel { port := 0, tag := [] }).1 = none ∧
    (((MultiOutputsMerge.new 2 0).merge_cancel { port := 0, tag := [] }).2.merge_cancel
        { port := 0, tag := [] }).1 = none ∧
    (((MultiOutputsMerge.new 2 0).merge_cancel { port := 0, tag := [] }).2.merge_cancel
        { port := 0, tag := [] }).2.cancelRecordedPorts [] =
      ((MultiOutputsMerge.new 2 0).merge_cancel { port := 0, tag := [] }).2.cancelRecordedPorts
        [] :=
  ⟨by decide, by decide,
    (merge_cancel_repeat_no_double_count (MultiOutputsMerge.new 2 0) { port := 0, tag := [] }
      (by decide) (by decide)).1,
    (merge_cancel_repeat_no_double_count (MultiOutputsMerge.new 2 0) { port := 0, tag := [] }
      (by decide) (by decide)).2⟩

/-- Counterexample for C8 as literally stated: once the threshold has fired
for a tag (entry removed), a repeated `cancel` from the same port *does*
increase the recorded-port set's cardinality for that tag (from 0 to 1),
starting a fresh accumulation round. -/
theorem merge_cancel_repeat_after_trigger_counterexample :
    (((MultiOutputsMerge.new 2 0).merge_cancel { port := 1, tag := [] }).2.merge_cancel
        { port := 0, tag := [] }).1 = some [] ∧
    ((((MultiOutputsMerge.new 2 0).merge_cancel { port := 1, tag := [] }).2.merge_cancel
        { port := 0, tag := [] }).2.cancelRecordedPorts []).length = 0 ∧
    (((((MultiOutputsMerge.new 2 0).merge_cancel { port := 1, tag := [] }).2.merge_cancel
        { port := 0, tag := [] }).2.merge_cancel
        { port := 0, tag := [] }).2.cancelRecordedPorts []).length = 1 := by
  decide

/-! ### C2 — delivery order of the merged completion signal -/

/-- Counterexample for C2 as stated: with two outputs, the default
`on_notify` delivers the completion signal to output port 1 first and to port
0 last — the delivery sequence [1, 0] is not in ascending port-index order. -/
theorem on_notify_port_order_counterexample :
    ((DefaultNotifyOperator.on_notify (DefaultNotify.new 1 2 0)
        { port := 0, tag := [], weight := 5 }
        [OutputProxy.fresh, OutputProxy.fresh]).2.2.2.map Prod.fst = [1, 0]) ∧
    ¬ List.Sorted (· ≤ ·) ([1, 0] : List Nat) := by
  constructor
  · decide
  · decide

/-! ### C7 — strategy selection from port cardinalities -/

/-- C7: `DefaultNotify::new` selects the strategy from (input count, output
count): both ≤ 1 — pass-through for end and cancel; inputs > 1 only — fan-in
barrier on ends, cancel passes through; outputs > 1 only — fan-out barrier on
cancels, ends pass through; both > 1 — both barriers. -/
theorem notify_strategy_selection (i o sl : Nat) (e : EndScope) (c : CancelScope) :
    (i ≤ 1 → o ≤ 1 →
      DefaultNotify.new i o sl = DefaultNotify.SISO ∧
      (DefaultNotify.new i o sl).merge_end e = (some e, DefaultNotify.new i o sl) ∧
      (DefaultNotify.new i o sl).merge_cancel c = (some c.tag, DefaultNotify.new i o sl)) ∧
    (1 < i → o ≤ 1 →
      DefaultNotify.new i o sl = DefaultNotify.MISO (MultiInputsMerge.new i sl) ∧
      (DefaultNotify.new i o sl).merge_end e =
        (((MultiInputsMerge.new i sl).merge_end e).1,
          DefaultNotify.MISO ((MultiInputsMerge.new i sl).merge_end e).2) ∧
      (DefaultNotify.new i o sl).merge_cancel c = (some c.tag, DefaultNotify.new i o sl)) ∧
    (i ≤ 1 → 1 < o →
      DefaultNotify.new i o sl = DefaultNotify.SIMO (MultiOutputsMerge.new o sl) ∧
      (DefaultNotify.new i o sl).merge_end e = (some e, DefaultNotify.new i o sl) ∧
      (DefaultNotify.new i o sl).merge_cancel c =
        (((MultiOutputsMerge.new o sl).merge_cancel c).1,
          DefaultNotify.SIMO ((MultiOutputsMerge.new o sl).merge_cancel c).2)) ∧
    (1 < i → 1 < o →
      DefaultNotify.new i o sl =
        DefaultNotify.MIMO (MultiInputsMerge.new i sl) (MultiOutputsMerge.new o sl) ∧
      (DefaultNotify.new i o sl).merge_end e =
        (((MultiInputsMerge.new i sl).merge_end e).1,
          DefaultNotify.MIMO ((MultiInputsMerge.new i sl).merge_end e).2
            (MultiOutputsMerge.new o sl)) ∧
      (DefaultNotify.new i o sl).merge_cancel c =
        (((MultiOutputsMerge.new o sl).merge_cancel c).1,
          DefaultNotify.MIMO (MultiInputsMerge.new i sl)
            ((MultiOutputsMerge.new o sl).merge_cancel c).2)) := by
  refine ⟨?_, ?_, ?_, ?_⟩
  · intro hi ho
    have hnew : DefaultNotify.new i o sl = DefaultNotify.SISO := by
      unfold DefaultNotify.new
      rw [if_neg (by omega), if_neg (by omega)]
    rw [hnew]
    exact ⟨rfl, rfl, rfl⟩
  · intro hi ho
    have hnew : DefaultNotify.new i o sl = DefaultNotify.MISO (MultiInputsMerge.new i sl) := by
      unfold DefaultNotify.new
      rw [if_pos (by omega), if_neg (by omega)]
    rw [hnew]
    exact ⟨rfl, rfl, rfl⟩
  · intro hi ho
    have hnew : DefaultNotify.new i o sl = DefaultNotify.SIMO (MultiOutputsMerge.new o sl) := by
      unfold DefaultNotify.new
      rw [if_neg (by omega), if_pos (by omega)]
    rw [hnew]
    exact ⟨rfl, rfl, rfl⟩
  · intro hi ho
    have hnew : DefaultNotify.new i o sl =
        DefaultNotify.MIMO (MultiInputsMerge.new i sl) (MultiOutputsMerge.new o sl) := by
      unfold DefaultNotify.new
      rw [if_pos (by omega), if_pos (by omega)]
    rw [hnew]
    exact ⟨rfl, rfl, rfl⟩

/-- Witness for C7 at the four concrete port configurations. -/
theorem notify_strategy_selection_witness :
    DefaultNotify.new 1 1 0 = DefaultNotify.SISO ∧
    (DefaultNotify.new 1 1 0).merge_end { port := 0, tag := [], weight := 0 } =
      (some { port := 0, tag := [], weight := 0 }, DefaultNotify.new 1 1 0) ∧
    DefaultNotify.new 2 1 0 = DefaultNotify.MISO (MultiInputsMerge.new 2 0) ∧
    (DefaultNotify.new 2 1 0).merge_cancel { port := 0, tag := [] } =
      (some [], DefaultNotify.new 2 1 0) ∧
    DefaultNotify.new 1 2 0 = DefaultNotify.SIMO (MultiOutputsMerge.new 2 0) ∧
    (DefaultNotify.new 1 2 0).merge_end { port := 0, tag := [], weight := 0 } =
      (some { port := 0, tag := [], weight := 0 }, DefaultNotify.new 1 2 0) ∧
    DefaultNotify.new 2 2 0 =
      DefaultNotify.MIMO (MultiInputsMerge.new 2 0) (MultiOutputsMerge.new 2 0) :=
  ⟨((notify_strategy_selection 1 1 0 { port := 0, tag := [], weight := 0 }
      { port := 0, tag := [] }).1 (by decide) (by decide)).1,
    ((notify_strategy_selection 1 1 0 { port := 0, tag := [], weight := 0 }
      { port := 0, tag := [] }).1 (by decide) (by decide)).2.1,
    ((notify_strategy_selection 2 1 0 { port := 0, tag := [], weight := 0 }
      { port := 0, tag := [] }).2.1 (by decide) (by decide)).1,
    ((notify_strategy_selection 2 1 0 { port := 0, tag := [], weight := 0 }
      { port := 0, tag := [] }).2.1 (by decide) (by decide)).2.2,
    ((notify_strategy_selection 1 2 0 { port := 0, tag := [], weight := 0 }
      { port := 0, tag := [] }).2.2.1 (by decide) (by decide)).1,
    ((notify_strategy_selection 1 2 0 { port := 0, tag := [], weight := 0 }
      { port := 0, tag := [] }).2.2.1 (by decide) (by decide)).2.1,
    ((notify_strategy_selection 2 2 0 { port := 0, tag := [], weight := 0 }
      { port := 0, tag := [] }).2.2.2 (by decide) (by decide)).1⟩

theorem listGetD_mem {α : Type} (l : List α) (i : Nat) (d : α) (h : i < l.length) :
    l.getD i d ∈ l := by
  rw [List.getD_eq_getElem l d h]
  exact List.getElem_mem h

theorem listMapSet_eq {α β : Type} (f : α → β) :
    ∀ (l : List α) (i : Nat) (x : α),
      (i < l.length → f x = f (l.getD i x)) → (l.set i x).map f = l.map f := by
  intro l
  induction l with
  | nil => intro i x h; rfl
  | cons a t ih =>
    intro i x h
    cases i with
    | zero =>
      have hx : f x = f a := by simpa using h (by simp)
      simp [List.set, hx]
    | succ j =>
      have := ih j x (fun hj => by simpa using h (by simpa using Nat.succ_lt_succ hj))
      simp [List.set, this]

/-- Running `notifySeq` over outputs whose `notify_end` always succeeds: no error, the
delivery log is exactly the index sequence paired with the signal, the
boundary outcomes and flush counts are untouched, and the success property is
preserved. -/
theorem notifySeq_ok (sig : EndSignal) :
    ∀ (idxs : List Nat) (outs : List OutputProxy),
      (∀ o ∈ outs, o.notify_err = none) →
      (notifySeq outs sig idxs).1 = none ∧
      (notifySeq outs sig idxs).2.2 = idxs.map (fun i => (i, sig)) ∧
      (∀ o ∈ (notifySeq outs sig idxs).2.1, o.notify_err = none) ∧
      (notifySeq outs sig idxs).2.1.map outMeta = outs.map outMeta := by
  intro idxs
  induction idxs with
  | nil => intro outs h; exact ⟨rfl, rfl, h, rfl⟩
  | cons i rest ih =>
    intro outs h
    have hno : (outs.getD i default).notify_err = none := by
      by_cases hi : i < outs.length
      · exact h _ (listGetD_mem outs i default hi)
      · rw [listGetD_oob _ _ _ (Nat.le_of_not_lt hi)]
        rfl
    have hmem : ∀ o ∈ outs.set i
        { outs.getD i default with
            notified := (outs.getD i default).notified ++ [sig] }, o.notify_err = none := by
      intro o2 ho2
      rcases List.mem_or_eq_of_mem_set ho2 with hm | he
      · exact h o2 hm
      · rw [he]
        exact hno
    obtain ⟨ih1, ih2, ih3, ih4⟩ := ih _ hmem
    have hmeta : (outs.set i
        { outs.getD i default with
            notified := (outs.getD i default).notified ++ [sig] }).map outMeta =
        outs.map outMeta := by
      refine listMapSet_eq outMeta outs i _ ?_
      intro hi
      have hsame : outs.getD i
          { outs.getD i default with
              notified := (outs.getD i default).notified ++ [sig] } =
          outs.getD i default := by
        rw [List.getD_eq_getElem _ _ hi, List.getD_eq_getElem _ _ hi]
      rw [hsame]
      rfl
    simp only [notifySeq]
    rw [if_pos hno]
    exact ⟨ih1, by rw [ih2]; rfl, ih3, by rw [ih4, hmeta]⟩

theorem rangeDropPerm (n : Nat) (h : 1 ≤ n) :
    (((List.range n).drop 1) ++ [0]).Perm (List.range n) := by
  obtain ⟨m, rfl⟩ := Nat.exists_eq_add_of_le h
  rw [Nat.add_comm] at *
  rw [List.range_succ_eq_map]
  simp only [List.drop_succ_cons, List.drop_zero]
  exact List.perm_append_singleton 0 (List.map Nat.succ (List.range m))

/-- C2 (amended): when the default `on_notify` obtains a merged end-of-scope
signal, it delivers the completion signal (tag plus merged weight) exactly
once to every output; the delivery order is output ports `1, 2, …, n-1` in
ascending order followed by port `0` last (not port 0 first). -/
theorem on_notify_delivers_every_output_port_zero_last
    (notify : DefaultNotify) (n : EndScope) (outs : List OutputProxy) (e : EndScope)
    (hne : outs ≠ []) (hok : ∀ o ∈ outs, o.notify_err = none)
    (hm : (notify.merge_end n).1 = some e) :
    (DefaultNotifyOperator.on_notify notify n outs).1 = none ∧
    (DefaultNotifyOperator.on_notify notify n outs).2.2.2 =
      (((List.range outs.length).drop 1) ++ [0]).map
        (fun i => (i, ({ tag := e.tag, weight := e.weight } : EndSignal))) ∧
    ((DefaultNotifyOperator.on_notify notify n outs).2.2.2.map Prod.fst).Perm
      (List.range outs.length) := by
  obtain ⟨h1, h2, h3, h4⟩ :=
    notifySeq_ok { tag := e.tag, weight := e.weight }
      (((List.range outs.length).drop 1) ++ [0]) outs hok
  simp only [DefaultNotifyOperator.on_notify]
  rw [if_neg (by simp [List.isEmpty_iff, hne]), hm]
  simp only []
  refine ⟨h1, h2, ?_⟩
  rw [h2]
  have hmap : ((((List.range outs.length).drop 1) ++ [0]).map
      (fun i => (i, ({ tag := e.tag, weight := e.weight } : EndSignal)))).map Prod.fst =
      ((List.range outs.length).drop 1) ++ [0] := by
    rw [List.map_map]
    have hcomp : (Prod.fst ∘ fun i : Nat =>
        (i, ({ tag := e.tag, weight := e.weight } : EndSignal))) = (id : Nat → Nat) := rfl
    rw [hcomp, List.map_id]
  rw [hmap]
  exact rangeDropPerm outs.length (List.length_pos.mpr hne)

/-- Witness for C2's amended theorem with a single-input/two-output strategy
and a root-scope end signal. -/
theorem on_notify_delivers_every_output_port_zero_last_witness :
    ([OutputProxy.fresh, OutputProxy.fresh] : List OutputProxy) ≠ [] ∧
    (DefaultNotifyOperator.on_notify (DefaultNotify.new 1 2 0)
      { port := 0, tag := [], weight := 5 } [OutputProxy.fresh, OutputProxy.fresh]).1 = none ∧
    (DefaultNotifyOperator.on_notify (DefaultNotify.new 1 2 0)
        { port := 0, tag := [], weight := 5 } [OutputProxy.fresh, OutputProxy.fresh]).2.2.2 =
      (((List.range 2).drop 1) ++ [0]).map
        (fun i => (i, ({ tag := [], weight := 5 } : EndSignal))) ∧
    ((DefaultNotifyOperator.on_notify (DefaultNotify.new 1 2 0)
        { port := 0, tag := [], weight := 5 }
        [OutputProxy.fresh, OutputProxy.fresh]).2.2.2.map Prod.fst).Perm (List.range 2) := by
  have h := on_notify_delivers_every_output_port_zero_last (DefaultNotify.new 1 2 0)
    { port := 0, tag := [], weight := 5 } [OutputProxy.fresh, OutputProxy.fresh]
    { port := 0, tag := [], weight := 5 } (by decide) (by decide) (by decide)
  exact ⟨by decide, h.1, h.2.1, h.2.2⟩

/-! ### C3 — fan-in barrier threshold behaviour -/

theorem listSet_replicate_self {α : Type} (n i : Nat) (a : α) :
    (List.replicate n a).set i a = List.replicate n a := by
  induction n generalizing i with
  | zero => rfl
  | succ m ih =>
    cases i with
    | zero => simp [List.replicate_succ]
    | succ j => simp [List.replicate_succ, ih]

theorem repEnd_slot {m : MultiInputsMerge} {N sl : Nat} {T : Tag}
    {st : Option (EndScope × List Nat)} (hT : T.length ≤ sl) (h : RepEnd m N sl T st) :
    m.end_merge.getD T.length [] = encodeEnd T st := by
  rw [h.2]
  exact listGetD_set_self _ _ _ _ (by simp [List.length_replicate]; omega)

/-- One `merge_end` call for tag `T` on a single-entry state is simulated by
`absEnd` on the entry. -/
theorem merge_end_rep (N sl : Nat) (T : Tag) (p : Nat) (w : Weight)
    (st : Option (EndScope × List Nat)) (m : MultiInputsMerge)
    (hT : T.length ≤ sl) (h : RepEnd m N sl T st) :
    (m.merge_end { port := p, tag := T, weight := w }).1 = (absEnd T N p w st).1 ∧
    RepEnd (m.merge_end { port := p, tag := T, weight := w }).2 N sl T
      (absEnd T N p w st).2 := by
  obtain ⟨hN, hem⟩ := h
  have hslot : m.end_merge.getD T.length [] = encodeEnd T st := by
    rw [hem]
    exact listGetD_set_self _ _ _ _ (by simp [List.length_replicate]; omega)
  cases st with
  | none =>
    have hx : TagMap.extract (m.end_merge.getD T.length []) T = (none, []) := by
      rw [hslot]
      rfl
    have h1' := merge_end_eq_of_none m { port := p, tag := T, weight := w } [] hx
    rw [h1']
    simp only [absEnd]
    refine ⟨by trivial, hN, ?_⟩
    rw [hslot, hem, List.set_set]
    rfl
  | some e =>
    obtain ⟨merged, count⟩ := e
    have hx : TagMap.extract (m.end_merge.getD T.length []) T =
        (some (merged, count), []) := by
      rw [hslot]
      simp [TagMap.extract, encodeEnd]
    by_cases hp : p ∈ count
    · have h1' := merge_end_eq_of_dup m { port := p, tag := T, weight := w } merged count [] hx hp
      rw [h1']
      simp only [absEnd]
      rw [if_pos hp]
      refine ⟨by trivial, hN, ?_⟩
      rw [hem, List.set_set]
      rfl
    · by_cases hNc : count.length + 1 = N
      · have h1' := merge_end_eq_of_hit m { port := p, tag := T, weight := w } merged count []
          hx hp (by rw [hN]; exact hNc)
        rw [h1']
        simp only [absEnd]
        rw [if_neg hp, if_pos hNc]
        refine ⟨by trivial, hN, ?_⟩
        rw [hem, List.set_set]
        rfl
      · have h1' := merge_end_eq_of_miss m { port := p, tag := T, weight := w } merged count []
          hx hp (by rw [hN]; exact hNc)
        rw [h1']
        simp only [absEnd]
        rw [if_neg hp, if_neg hNc]
        refine ⟨by trivial, hN, ?_⟩
        rw [hem, List.set_set]
        rfl

/-- A run of `merge_end` calls for one tag from a single-entry state is
simulated by `absEndRun`. -/
theorem runEnds_rep (N sl : Nat) (T : Tag) (hT : T.length ≤ sl) :
    ∀ (pws : List (Nat × Weight)) (st : Option (EndScope × List Nat))
      (m : MultiInputsMerge), RepEnd m N sl T st →
      (runEnds m (mkEnds T pws)).1 = (absEndRun T N st pws).1 ∧
      RepEnd (runEnds m (mkEnds T pws)).2 N sl T (absEndRun T N st pws).2 := by
  intro pws
  induction pws with
  | nil => intro st m h; exact ⟨rfl, h⟩
  | cons pw rest ih =>
    intro st m h
    obtain ⟨p, w⟩ := pw
    obtain ⟨hstep1, hstep2⟩ := merge_end_rep N sl T p w st m hT h
    obtain ⟨ih1, ih2⟩ := ih (absEnd T N p w st).2
      (m.merge_end { port := p, tag := T, weight := w }).2 hstep2
    simp only [mkEnds, List.map_cons, runEnds, absEndRun]
    constructor
    · rw [hstep1]
      rw [show (mkEnds T rest) = rest.map
          (fun pw => { port := pw.1, tag := T, weight := pw.2 }) from rfl] at ih1
      rw [ih1]
    · exact ih2

/-- Safety of the abstract fan-in run: while the distinct ports seen stay
below `N`, every call returns nothing. -/
theorem absEndRun_safety (T : Tag) (N : Nat) :
    ∀ (pws : List (Nat × Weight)) (st : Option (EndScope × List Nat)) (S : Finset Nat),
      (stEndPorts st).Nodup → (∀ x ∈ stEndPorts st, x ∈ S) →
      (S ∪ (pws.map Prod.fst).toFinset).card < N →
      ∀ r ∈ (absEndRun T N st pws).1, r = none := by
  intro pws
  induction pws with
  | nil => intro st S hnd hsub hcard r hr; simp [absEndRun] at hr
  | cons pw rest ih =>
    intro st S hnd hsub hcard r hr
    obtain ⟨p, w⟩ := pw
    have hcard2 : ((insert p S) ∪ (rest.map Prod.fst).toFinset).card < N := by
      refine lt_of_le_of_lt (Finset.card_le_card ?_) hcard
      intro x hx
      simp only [Finset.mem_union, Finset.mem_insert, List.map_cons, List.toFinset_cons] at hx ⊢
      tauto
    have hcardr : (S ∪ (rest.map Prod.fst).toFinset).card < N := by
      refine lt_of_le_of_lt (Finset.card_le_card ?_) hcard
      intro x hx
      simp only [Finset.mem_union, List.map_cons, List.toFinset_cons, Finset.mem_insert] at hx ⊢
      tauto
    cases st with
    | none =>
      simp only [absEndRun, absEnd] at hr
      rcases List.mem_cons.mp hr with hr0 | hrrest
      · exact hr0
      · exact ih (some ({ port := p, tag := T, weight := w }, [p])) (insert p S)
          (by simp [stEndPorts])
          (by
            intro x hx
            have hxp : x = p := List.mem_singleton.mp hx
            rw [hxp]
            exact Finset.mem_insert_self p S)
          hcard2 r hrrest
    | some e =>
      obtain ⟨merged, count⟩ := e
      by_cases hp : p ∈ count
      · simp only [absEndRun, absEnd, if_pos hp] at hr
        rcases List.mem_cons.mp hr with hr0 | hrrest
        · exact hr0
        · exact ih none S (by simp [stEndPorts]) (by simp [stEndPorts]) hcardr r hrrest
      · by_cases hNc : count.length + 1 = N
        · exfalso
          have hcnt : count.toFinset.card = count.length :=
            List.toFinset_card_of_nodup (by simpa [stEndPorts] using hnd)
          have hpn : p ∉ count.toFinset := by simpa using hp
          have hins : (insert p count.toFinset).card = count.length + 1 := by
            rw [Finset.card_insert_of_not_mem hpn, hcnt]
          have hsubst : insert p count.toFinset ⊆
              S ∪ (((p, w) :: rest).map Prod.fst).toFinset := by
            intro x hx
            rcases Finset.mem_insert.mp hx with rfl | hxc
            · refine Finset.mem_union_right _ ?_
              simp
            · exact Finset.mem_union_left _ (hsub x (by simpa [stEndPorts] using hxc))
          have hle : count.length + 1 ≤
              (S ∪ (((p, w) :: rest).map Prod.fst).toFinset).card := by
            rw [← hins]
            exact Finset.card_le_card hsubst
          omega
        · simp only [absEndRun, absEnd, if_neg hp, if_neg hNc] at hr
          rcases List.mem_cons.mp hr with hr0 | hrrest
          · exact hr0
          · exact ih (some ({ merged with weight := Weight.merge merged.weight w },
              p :: count)) (insert p S)
              (List.nodup_cons.mpr ⟨hp, hnd⟩)
              (by
                intro x hx
                rcases List.mem_cons.mp hx with hxp | hxc
                · rw [hxp]
                  exact Finset.mem_insert_self p S
                · exact Finset.mem_insert_of_mem (hsub x hxc))
              hcard2 r hrrest

/-- Completion of the abstract fan-in run: starting from an entry with
recorded set `count`, a duplicate-free batch of fresh ports that brings the
set size exactly to `N` yields `none` on every call but the last, which
returns the entry with every weight merged in. -/
theorem absEndRun_complete (T : Tag) (N : Nat) :
    ∀ (pws : List (Nat × Weight)) (esc : EndScope) (count : List Nat),
      pws ≠ [] → (∀ q ∈ pws.map Prod.fst, q ∉ count) → (pws.map Prod.fst).Nodup →
      count.length + pws.length = N →
      (absEndRun T N (some (esc, count)) pws).1 =
        List.replicate (pws.length - 1) (none : Option EndScope) ++
          [some { esc with weight := esc.weight + (pws.map Prod.snd).sum }] := by
  intro pws
  induction pws with
  | nil => intro esc count hne hdisj hnd hlen; exact absurd rfl hne
  | cons pw rest ih =>
    intro esc count hne hdisj hnd hlen
    obtain ⟨p, w⟩ := pw
    simp only [List.map_cons] at hnd hdisj
    have hp : p ∉ count := hdisj p (List.mem_cons_self p _)
    by_cases hr0 : rest = []
    · subst hr0
      have hNc : count.length + 1 = N := by simpa using hlen
      simp only [absEndRun, absEnd, if_neg hp, if_pos hNc]
      simp [Weight.merge]
    · have hlenr : 1 ≤ rest.length := List.length_pos.mpr hr0
      have hNc : ¬ (count.length + 1 = N) := by
        simp only [List.length_cons] at hlen
        omega
      have hnd2 := List.nodup_cons.mp hnd
      have ihr := ih { esc with weight := Weight.merge esc.weight w } (p :: count)
        hr0
        (by
          intro q hq hqmem
          rcases List.mem_cons.mp hqmem with hqp | hqc
          · rw [hqp] at hq
            exact hnd2.1 hq
          · exact hdisj q (List.mem_cons_of_mem _ hq) hqc)
        hnd2.2
        (by
          simp only [List.length_cons] at hlen ⊢
          omega)
      simp only [absEndRun, absEnd, if_neg hp, if_neg hNc]
      rw [ihr]
      obtain ⟨k, hk⟩ := Nat.exists_eq_add_of_le hlenr
      rw [Nat.add_comm] at hk
      simp only [List.length_cons, Nat.add_sub_cancel, List.map_cons, List.sum_cons, hk,
        Nat.add_sub_cancel, List.replicate_succ]
      simp [Weight.merge, Nat.add_assoc]

theorem repEnd_new (N sl : Nat) (T : Tag) :
    RepEnd (MultiInputsMerge.new N sl) N sl T none := by
  refine ⟨rfl, ?_⟩
  show List.replicate (sl + 1) [] =
    (List.replicate (sl + 1) []).set T.length (encodeEnd T none)
  rw [show encodeEnd T none = [] from rfl, listSet_replicate_self]

/-- C3: for a fan-in barrier with more than one input, (a) a `merge_end` call
produces the merged end of scope exactly when its port is not yet recorded and
recording it brings the recorded-port set to the configured input count; (b)
as long as fewer distinct ports than the input count have reported, every call
returns nothing, regardless of order; (c) a duplicate-free report from each of
`N` distinct ports returns nothing on the first `N - 1` calls and the merged
`EndScope` — carrying the tag and the merge of every contributed weight — on
the `N`-th. -/
theorem merge_end_barrier_threshold :
    (∀ (m : MultiInputsMerge) (n : EndScope), 1 < m.input_size →
      ((m.merge_end n).1.isSome = true ↔
        (n.port ∉ m.endRecordedPorts n.tag ∧
          (m.endRecordedPorts n.tag).length + 1 = m.input_size))) ∧
    (∀ (N sl : Nat) (T : Tag) (pws : List (Nat × Weight)), 1 < N → T.length ≤ sl →
      (pws.map Prod.fst).toFinset.card < N →
      ∀ r ∈ (runEnds (MultiInputsMerge.new N sl) (mkEnds T pws)).1, r = none) ∧
    (∀ (N sl : Nat) (T : Tag) (pws : List (Nat × Weight)), 1 < N → T.length ≤ sl →
      (pws.map Prod.fst).Nodup → pws.length = N →
      ∃ esc : EndScope,
        (runEnds (MultiInputsMerge.new N sl) (mkEnds T pws)).1 =
          List.replicate (N - 1) (none : Option EndScope) ++ [some esc] ∧
        esc.tag = T ∧ esc.weight = (pws.map Prod.snd).sum) := by
  refine ⟨?_, ?_, ?_⟩
  · intro m n hN
    rcases hx : TagMap.extract (m.end_merge.getD n.tag.length []) n.tag with ⟨r0, rest0⟩
    have hget : TagMap.get (m.end_merge.getD n.tag.length []) n.tag = r0 := by
      rw [← TagMap.extract_fst_eq_get, hx]
    have hrec : m.endRecordedPorts n.tag = (r0.map Prod.snd).getD [] := by
      unfold MultiInputsMerge.endRecordedPorts MultiInputsMerge.endEntry
      rw [hget]
    cases r0 with
    | none =>
      rw [merge_end_eq_of_none m n rest0 hx, hrec]
      constructor
      · intro h
        simp at h
      · rintro ⟨-, h2⟩
        simp only [Option.map_none', Option.getD_none, List.length_nil] at h2
        omega
    | some e =>
      obtain ⟨merged, count⟩ := e
      rw [hrec]
      by_cases hp : n.port ∈ count
      · rw [merge_end_eq_of_dup m n merged count rest0 hx hp]
        simp [hp]
      · by_cases hNc : count.length + 1 = m.input_size
        · rw [merge_end_eq_of_hit m n merged count rest0 hx hp hNc]
          simp [hp, hNc]
        · rw [merge_end_eq_of_miss m n merged count rest0 hx hp hNc]
          simp [hp, hNc]
  · intro N sl T pws hN hT hcard r hr
    obtain ⟨hrun, -⟩ := runEnds_rep N sl T hT pws none _ (repEnd_new N sl T)
    rw [hrun] at hr
    exact absEndRun_safety T N pws none ∅ (by simp [stEndPorts]) (by simp [stEndPorts])
      (by simpa using hcard) r hr
  · intro N sl T pws hN hT hnd hlen
    cases pws with
    | nil =>
      exfalso
      simp at hlen
      omega
    | cons pw rest =>
      obtain ⟨p1, w1⟩ := pw
      obtain ⟨hrun, -⟩ := runEnds_rep N sl T hT ((p1, w1) :: rest) none _ (repEnd_new N sl T)
      have hr0 : rest ≠ [] := by
        intro h
        subst h
        simp at hlen
        omega
      simp only [List.map_cons] at hnd
      have hnd2 := List.nodup_cons.mp hnd
      have hcompl := absEndRun_complete T N rest { port := p1, tag := T, weight := w1 } [p1]
        hr0
        (by
          intro q hq hqm
          have hq1 : q = p1 := List.mem_singleton.mp hqm
          rw [hq1] at hq
          exact hnd2.1 hq)
        hnd2.2
        (by
          simp only [List.length_cons] at hlen
          simp only [List.length_singleton]
          omega)
      have hN1 : N - 1 = rest.length := by
        simp only [List.length_cons] at hlen
        omega
      obtain ⟨k, hk⟩ := Nat.exists_eq_add_of_le (List.length_pos.mpr hr0)
      rw [Nat.add_comm] at hk
      refine ⟨{ port := p1, tag := T, weight := w1 + (rest.map Prod.snd).sum },
        ?_, rfl, ?_⟩
      · rw [hrun]
        simp only [absEndRun, absEnd]
        rw [hcompl, hN1, hk, List.replicate_succ]
        simp [List.cons_append]
      · simp

/-- Witness for C3: a two-input barrier at scope level 0 and the root tag. -/
theorem merge_end_barrier_threshold_witness :
    (((MultiInputsMerge.new 2 0).merge_end { port := 0, tag := [], weight := 1 }).1.isSome =
        true ↔
      (0 ∉ (MultiInputsMerge.new 2 0).endRecordedPorts [] ∧
        ((MultiInputsMerge.new 2 0).endRecordedPorts []).length + 1 = 2)) ∧
    (∀ r ∈ (runEnds (MultiInputsMerge.new 2 0) (mkEnds [] [(0, 1)])).1, r = none) ∧
    (∃ esc : EndScope,
      (runEnds (MultiInputsMerge.new 2 0) (mkEnds [] [(0, 1), (1, 2)])).1 =
        List.replicate 1 (none : Option EndScope) ++ [some esc] ∧
      esc.tag = [] ∧ esc.weight = 3) :=
  ⟨merge_end_barrier_threshold.1 (MultiInputsMerge.new 2 0)
      { port := 0, tag := [], weight := 1 } (by decide),
    merge_end_barrier_threshold.2.1 2 0 [] [(0, 1)] (by decide) (by decide) (by decide),
    merge_end_barrier_threshold.2.2 2 0 [] [(0, 1), (1, 2)] (by decide) (by decide)
      (by decide) (by decide)⟩

/-! ### C4 — fan-out barrier threshold behaviour -/

theorem insertPort_nodup {p : Nat} {s : List Nat} (h : s.Nodup) : (insertPort p s).Nodup := by
  by_cases hp : p ∈ s
  · rw [insertPort_of_mem hp]
    exact h
  · unfold insertPort
    rw [if_neg hp]
    exact List.nodup_cons.mpr ⟨hp, h⟩

theorem insertPort_ne_nil (p : Nat) (s : List Nat) : insertPort p s ≠ [] := by
  intro h
  have := insertPort_mem_self p s
  rw [h] at this
  simp at this

theorem insertPort_length_le (p : Nat) (s : List Nat) :
    (insertPort p s).length ≤ s.length + 1 := by
  by_cases hp : p ∈ s
  · rw [insertPort_of_mem hp]
    omega
  · unfold insertPort
    rw [if_neg hp]
    simp

theorem insertPort_toFinset (p : Nat) (s : List Nat) :
    (insertPort p s).toFinset = insert p s.toFinset := by
  by_cases hp : p ∈ s
  · rw [insertPort_of_mem hp]
    rw [Finset.insert_eq_self.mpr (List.mem_toFinset.mpr hp)]
  · unfold insertPort
    rw [if_neg hp]
    exact List.toFinset_cons

theorem repCancel_slot {mom : MultiOutputsMerge} {M sl : Nat} {T : Tag}
    {st : Option (List Nat)} (hT : T.length ≤ sl) (h : RepCancel mom M sl T st) :
    mom.cancel_merge.getD T.length [] = encodeCancel T st := by
  rw [h.2]
  exact listGetD_set_self _ _ _ _ (by simp [List.length_replicate]; omega)

theorem repCancel_new (M sl : Nat) (T : Tag) :
    RepCancel (MultiOutputsMerge.new M sl) M sl T none := by
  refine ⟨rfl, ?_⟩
  show List.replicate (sl + 1) [] =
    (List.replicate (sl + 1) []).set T.length (encodeCancel T none)
  rw [show encodeCancel T none = [] from rfl, listSet_replicate_self]

theorem repCancel_ports {mom : MultiOutputsMerge} {M sl : Nat} {T : Tag}
    {st : Option (List Nat)} (hT : T.length ≤ sl) (h : RepCancel mom M sl T st) :
    mom.cancelRecordedPorts T = st.getD [] := by
  unfold MultiOutputsMerge.cancelRecordedPorts
  rw [repCancel_slot hT h]
  cases st with
  | none => rfl
  | some s => simp [encodeCancel, TagMap.get]

/-- One `merge_cancel` call for tag `T` on a single-entry state is simulated
by `absCancel` on the entry. -/
theorem merge_cancel_rep (M sl : Nat) (T : Tag) (p : Nat)
    (st : Option (List Nat)) (mom : MultiOutputsMerge)
    (hT : T.length ≤ sl) (h : RepCancel mom M sl T st) :
    (mom.merge_cancel { port := p, tag := T }).1 = (absCancel T M p st).1 ∧
    RepCancel (mom.merge_cancel { port := p, tag := T }).2 M sl T
      (absCancel T M p st).2 := by
  obtain ⟨hM, hcm⟩ := h
  have hslot : mom.cancel_merge.getD T.length [] = encodeCancel T st :=
    repCancel_slot hT ⟨hM, hcm⟩
  cases st with
  | none =>
    have hx : TagMap.extract (mom.cancel_merge.getD T.length []) T = (none, []) := by
      rw [hslot]
      rfl
    have h1' := merge_cancel_eq_of_none mom { port := p, tag := T } [] hx
    rw [h1']
    simp only [absCancel]
    refine ⟨by trivial, hM, ?_⟩
    rw [hslot, hcm, List.set_set]
    rfl
  | some s =>
    have hx : TagMap.extract (mom.cancel_merge.getD T.length []) T = (some s, []) := by
      rw [hslot]
      simp [TagMap.extract, encodeCancel]
    by_cases h0 : M - (insertPort p s).length = 0
    · have h1' := merge_cancel_eq_of_some_hit mom { port := p, tag := T } s [] hx
        (by rw [hM]; exact h0)
      rw [h1']
      simp only [absCancel]
      rw [if_pos h0]
      refine ⟨by trivial, hM, ?_⟩
      rw [hcm, List.set_set]
      rfl
    · have h1' := merge_cancel_eq_of_some_miss mom { port := p, tag := T } s [] hx
        (by rw [hM]; exact h0)
      rw [h1']
      simp only [absCancel]
      rw [if_neg h0]
      refine ⟨by trivial, hM, ?_⟩
      rw [hcm, List.set_set]
      rfl

/-- A run of `merge_cancel` calls for one tag from a single-entry state is
simulated by `absCancelRun`. -/
theorem runCancels_rep (M sl : Nat) (T : Tag) (hT : T.length ≤ sl) :
    ∀ (ps : List Nat) (st : Option (List Nat)) (mom : MultiOutputsMerge),
      RepCancel mom M sl T st →
      (runCancels mom (mkCancels T ps)).1 = (absCancelRun T M st ps).1 ∧
      RepCancel (runCancels mom (mkCancels T ps)).2 M sl T (absCancelRun T M st ps).2 := by
  intro ps
  induction ps with
  | nil => intro st mom h; exact ⟨rfl, h⟩
  | cons p rest ih =>
    intro st mom h
    obtain ⟨hstep1, hstep2⟩ := merge_cancel_rep M sl T p st mom hT h
    obtain ⟨ih1, ih2⟩ := ih (absCancel T M p st).2
      (mom.merge_cancel { port := p, tag := T }).2 hstep2
    simp only [mkCancels, List.map_cons, runCancels, absCancelRun]
    constructor
    · rw [hstep1]
      rw [show (mkCancels T rest) = rest.map (fun p => { port := p, tag := T }) from rfl] at ih1
      rw [ih1]
    · exact ih2

/-- Safety of the abstract fan-out run: while the distinct ports seen stay
below `M`, every call returns nothing and the entry, once created, is
retained (and nonempty). -/
theorem absCancelRun_safety (T : Tag) (M : Nat) :
    ∀ (ps : List Nat) (st : Option (List Nat)) (S : Finset Nat),
      (st.getD []).Nodup → (∀ x ∈ st.getD [], x ∈ S) →
      (∀ s, st = some s → s ≠ []) →
      (S ∪ ps.toFinset).card < M →
      (∀ r ∈ (absCancelRun T M st ps).1, r = none) ∧
      ((st ≠ none ∨ ps ≠ []) →
        ∃ s, (absCancelRun T M st ps).2 = some s ∧ s ≠ []) := by
  intro ps
  induction ps with
  | nil =>
    intro st S hnd hsub hne hcard
    refine ⟨by simp [absCancelRun], ?_⟩
    rintro (hst | hps)
    · cases st with
      | none => exact absurd rfl hst
      | some s => exact ⟨s, rfl, hne s rfl⟩
    · exact absurd rfl hps
  | cons p rest ih =>
    intro st S hnd hsub hne hcard
    have hcard2 : ((insert p S) ∪ rest.toFinset).card < M := by
      refine lt_of_le_of_lt (Finset.card_le_card ?_) hcard
      intro x hx
      simp only [Finset.mem_union, Finset.mem_insert, List.toFinset_cons] at hx ⊢
      tauto
    cases st with
    | none =>
      have hrec := ih (some [p]) (insert p S) (by simp) (by simp)
        (fun s hs => by
          injection hs with hs2
          rw [← hs2]
          simp)
        hcard2
      simp only [absCancelRun, absCancel]
      refine ⟨?_, ?_⟩
      · intro r hr
        rcases List.mem_cons.mp hr with hr0 | hrrest
        · exact hr0
        · exact hrec.1 r hrrest
      · intro _
        exact hrec.2 (Or.inl (by simp))
    | some s =>
      have hset : ¬ (M - (insertPort p s).length = 0) := by
        intro h0
        have hlen : M ≤ (insertPort p s).length := by omega
        have hnd2 : (insertPort p s).Nodup := insertPort_nodup hnd
        have hcnt : (insertPort p s).toFinset.card = (insertPort p s).length :=
          List.toFinset_card_of_nodup hnd2
        have hsubst : (insertPort p s).toFinset ⊆ S ∪ (p :: rest).toFinset := by
          rw [insertPort_toFinset]
          intro x hx
          rcases Finset.mem_insert.mp hx with hxp | hxc
          · refine Finset.mem_union_right _ ?_
            rw [hxp]
            simp
          · exact Finset.mem_union_left _ (hsub x (List.mem_toFinset.mp hxc))
        have hle : (insertPort p s).length ≤ (S ∪ (p :: rest).toFinset).card := by
          rw [← hcnt]
          exact Finset.card_le_card hsubst
        omega
      have hrec := ih (some (insertPort p s)) (insert p S)
        (insertPort_nodup hnd)
        (by
          intro x hx
          by_cases hxs : x ∈ s
          · exact Finset.mem_insert_of_mem (hsub x hxs)
          · have : x = p := by
              unfold insertPort at hx
              rcases (by
                by_cases hps : p ∈ s
                · rw [if_pos hps] at hx
                  exact absurd hx hxs
                · rw [if_neg hps] at hx
                  exact hx : x ∈ p :: s) with h2
              rcases List.mem_cons.mp h2 with h3 | h3
              · exact h3
              · exact absurd h3 hxs
            rw [this]
            exact Finset.mem_insert_self p S)
        (fun s2 hs2 => by
          injection hs2 with hs3
          rw [← hs3]
          exact insertPort_ne_nil p s)
        hcard2
      simp only [absCancelRun, absCancel]
      rw [if_neg hset]
      refine ⟨?_, ?_⟩
      · intro r hr
        rcases List.mem_cons.mp hr with hr0 | hrrest
        · exact hr0
        · exact hrec.1 r hrrest
      · intro _
        exact hrec.2 (Or.inl (by simp))

/-- C4: for a fan-out barrier with more than one output, (i) a `merge_cancel`
call returns the tag exactly when recording its port brings the recorded set
of distinct ports to the configured output count; (ii) on a single-entry
state, a triggering call removes the entry while (iii) a non-triggering call
retains it with the port recorded; (iv) for any call sequence naming fewer
distinct ports than the output count, every call returns nothing and the
entry stays pending; and (v) a merge that returns nothing delivers no
cancellation to any input. -/
theorem merge_cancel_barrier_threshold :
    (∀ (mom : MultiOutputsMerge) (n : CancelScope), 1 < mom.output_size →
      (mom.cancelRecordedPorts n.tag).length < mom.output_size →
      ((mom.merge_cancel n).1 = some n.tag ↔
        (insertPort n.port (mom.cancelRecordedPorts n.tag)).length = mom.output_size)) ∧
    (∀ (M sl : Nat) (T : Tag) (st : Option (List Nat)) (mom : MultiOutputsMerge) (p : Nat),
      T.length ≤ sl → RepCancel mom M sl T st →
      ((mom.merge_cancel { port := p, tag := T }).1 = some T →
        (mom.merge_cancel { port := p, tag := T }).2.cancelRecordedPorts T = []) ∧
      ((mom.merge_cancel { port := p, tag := T }).1 = none →
        (mom.merge_cancel { port := p, tag := T }).2.cancelRecordedPorts T =
          insertPort p (mom.cancelRecordedPorts T))) ∧
    (∀ (M sl : Nat) (T : Tag) (ps : List Nat), 1 < M → T.length ≤ sl →
      ps.toFinset.card < M →
      (∀ r ∈ (runCancels (MultiOutputsMerge.new M sl) (mkCancels T ps)).1, r = none) ∧
      (ps ≠ [] →
        (runCancels (MultiOutputsMerge.new M sl)
          (mkCancels T ps)).2.cancelRecordedPorts T ≠ [])) ∧
    (∀ (dn : DefaultNotify) (c : CancelScope) (inputs : List InputProxy),
      (dn.merge_cancel c).1 = none →
      (DefaultNotifyOperator.on_cancel dn c inputs).2 = inputs) := by
  refine ⟨?_, ?_, ?_, ?_⟩
  · intro mom n hM hlen
    rcases hx : TagMap.extract (mom.cancel_merge.getD n.tag.length []) n.tag with ⟨r0, rest0⟩
    have hget : TagMap.get (mom.cancel_merge.getD n.tag.length []) n.tag = r0 := by
      rw [← TagMap.extract_fst_eq_get, hx]
    have hrec : mom.cancelRecordedPorts n.tag = r0.getD [] := by
      unfold MultiOutputsMerge.cancelRecordedPorts
      rw [hget]
    cases r0 with
    | none =>
      rw [merge_cancel_eq_of_none mom n rest0 hx, hrec]
      constructor
      · intro h
        exact absurd h (by simp)
      · intro h
        simp only [Option.getD_none] at h
        rw [show insertPort n.port [] = [n.port] from rfl] at h
        simp only [List.length_singleton] at h
        omega
    | some s =>
      rw [hrec] at hlen ⊢
      simp only [Option.getD_some] at hlen ⊢
      by_cases h0 : mom.output_size - (insertPort n.port s).length = 0
      · rw [merge_cancel_eq_of_some_hit mom n s rest0 hx h0]
        have hle := insertPort_length_le n.port s
        constructor
        · intro _
          omega
        · intro _
          rfl
      · rw [merge_cancel_eq_of_some_miss mom n s rest0 hx h0]
        constructor
        · intro h
          exact absurd h (by simp)
        · intro h
          omega
  · intro M sl T st mom p hT hrep
    obtain ⟨hr, hrep2⟩ := merge_cancel_rep M sl T p st mom hT hrep
    have hports := repCancel_ports hT hrep
    have hports2 := repCancel_ports hT hrep2
    cases st with
    | none =>
      simp only [absCancel] at hr hrep2 hports2
      constructor
      · intro hsome
        rw [hr] at hsome
        exact absurd hsome (by simp)
      · intro _
        rw [hports2, hports]
        rfl
    | some s =>
      by_cases h0 : M - (insertPort p s).length = 0
      · simp only [absCancel, if_pos h0] at hr hrep2 hports2
        constructor
        · intro _
          rw [hports2]
          rfl
        · intro hnone
          rw [hr] at hnone
          exact absurd hnone (by simp)
      · simp only [absCancel, if_neg h0] at hr hrep2 hports2
        constructor
        · intro hsome
          rw [hr] at hsome
          exact absurd hsome (by simp)
        · intro _
          rw [hports2, hports]
          rfl
  · intro M sl T ps hM hT hcard
    obtain ⟨hrun, hrep⟩ := runCancels_rep M sl T hT ps none _ (repCancel_new M sl T)
    obtain ⟨hall, hkept⟩ := absCancelRun_safety T M ps none ∅ (by simp) (by simp)
      (by intro s hs; exact absurd hs (by simp)) (by simpa using hcard)
    constructor
    · intro r hr
      rw [hrun] at hr
      exact hall r hr
    · intro hne
      obtain ⟨s, hs, hsne⟩ := hkept (Or.inr hne)
      rw [repCancel_ports hT hrep, hs]
      simpa using hsne
  · intro dn c inputs h
    unfold DefaultNotifyOperator.on_cancel
    by_cases hi : inputs.isEmpty
    · rw [if_pos hi]
    · rw [if_neg hi]
      simp only []
      rw [h]

/-- Witness for C4: a two-output barrier at scope level 0 and the root tag. -/
theorem merge_cancel_barrier_threshold_witness :
    (((MultiOutputsMerge.new 2 0).merge_cancel { port := 0, tag := [] }).1 = some [] ↔
      (insertPort 0 ((MultiOutputsMerge.new 2 0).cancelRecordedPorts [])).length = 2) ∧
    (((MultiOutputsMerge.new 2 0).merge_cancel { port := 0, tag := [] }).1 = none →
      ((MultiOutputsMerge.new 2 0).merge_cancel { port := 0, tag := [] }).2.cancelRecordedPorts
        [] = insertPort 0 ((MultiOutputsMerge.new 2 0).cancelRecordedPorts [])) ∧
    (∀ r ∈ (runCancels (MultiOutputsMerge.new 2 0) (mkCancels [] [0])).1, r = none) ∧
    ((runCancels (MultiOutputsMerge.new 2 0) (mkCancels [] [0])).2.cancelRecordedPorts [] ≠ []) ∧
    ((DefaultNotifyOperator.on_cancel (DefaultNotify.new 1 2 0) { port := 0, tag := [] }
      [inputOneEnd]).2 = [inputOneEnd]) :=
  ⟨merge_cancel_barrier_threshold.1 (MultiOutputsMerge.new 2 0) { port := 0, tag := [] }
      (by decide) (by decide),
    (merge_cancel_barrier_threshold.2.1 2 0 [] none (MultiOutputsMerge.new 2 0) 0
      (by decide) (repCancel_new 2 0 [])).2,
    (merge_cancel_barrier_threshold.2.2.1 2 0 [] [0] (by decide) (by decide) (by decide)).1,
    (merge_cancel_barrier_threshold.2.2.1 2 0 [] [0] (by decide) (by decide) (by decide)).2
      (by decide),
    merge_cancel_barrier_threshold.2.2.2 (DefaultNotify.new 1 2 0) { port := 0, tag := [] }
      [inputOneEnd] (by decide)⟩

/-! ### C9 — statistics accounting on every exit path of fire -/

theorem fireRest_stats (op : Operator) (r : Option JobExecError) :
    (op.fireRest r).2.fire_times = op.fire_times ∧
    (op.fireRest r).2.exec_st = op.exec_st := by
  unfold Operator.fireRest
  by_cases hd : (drainAll op.notify 0 op.inputs op.outputs).1 = none
  · rw [if_pos hd]
    by_cases hf : (flushAll (drainAll op.notify 0 op.inputs op.outputs).2.2.2).1 = none
    · rw [if_pos hf]
      exact ⟨rfl, rfl⟩
    · rw [if_neg hf]
      exact ⟨rfl, rfl⟩
  · rw [if_neg hd]
    exact ⟨rfl, rfl⟩

theorem fireBody_stats (op : Operator) (recv : Option JobExecError) :
    (op.fireBody recv).2.fire_times = op.fire_times + 1 ∧
    (op.fireBody recv).2.exec_st = op.exec_st := by
  constructor
  · simp only [Operator.fireBody]
    repeat' split
    all_goals first
      | exact (fireRest_stats _ _).1
      | rfl
  · simp only [Operator.fireBody]
    repeat' split
    all_goals first
      | exact (fireRest_stats _ _).2
      | rfl

/-- C9: every call to `fire` — on every exit path, including the immediate
return on a fatal computation error and returns caused by boundary-call
errors — increments the cumulative fire count by exactly one and accumulates
the quantum's elapsed time into the cumulative busy-time statistic (the
`Finally` scope guard). -/
theorem fire_updates_stats_on_every_path (op : Operator) (recv : Option JobExecError)
    (elapsed : Nat) :
    (op.fire recv elapsed).2.fire_times = op.fire_times + 1 ∧
    (op.fire recv elapsed).2.exec_st = op.exec_st + elapsed := by
  obtain ⟨h1, h2⟩ := fireBody_stats op recv
  unfold Operator.fire
  exact ⟨h1, by simp only []; rw [h2]⟩

/-! ### C5 — retryable errors do not skip draining and flushing -/

theorem firstUnblockErr_of_ok (outs : List OutputProxy)
    (h : ∀ o ∈ outs, o.unblock_err = none) : firstUnblockErr outs = none := by
  induction outs with
  | nil => rfl
  | cons o rest ih =>
    unfold firstUnblockErr
    rw [if_pos (h o (List.mem_cons_self o rest))]
    exact ih (fun o2 ho2 => h o2 (List.mem_cons_of_mem o ho2))

theorem metaEq_notify_err {outs2 outs : List OutputProxy}
    (hm : outs2.map outMeta = outs.map outMeta)
    (h : ∀ o ∈ outs, o.notify_err = none) : ∀ o ∈ outs2, o.notify_err = none := by
  intro o2 ho2
  have h1 : outMeta o2 ∈ outs2.map outMeta := List.mem_map_of_mem outMeta ho2
  rw [hm] at h1
  obtain ⟨o, ho, heq⟩ := List.mem_map.mp h1
  have h2 : o.notify_err = o2.notify_err := congrArg (fun m => m.2.1) heq
  rw [← h2]
  exact h o ho

theorem metaEq_flush_err {outs2 outs : List OutputProxy}
    (hm : outs2.map outMeta = outs.map outMeta)
    (h : ∀ o ∈ outs, o.flush_err = none) : ∀ o ∈ outs2, o.flush_err = none := by
  intro o2 ho2
  have h1 : outMeta o2 ∈ outs2.map outMeta := List.mem_map_of_mem outMeta ho2
  rw [hm] at h1
  obtain ⟨o, ho, heq⟩ := List.mem_map.mp h1
  have h2 : o.flush_err = o2.flush_err := congrArg (fun m => m.2.2.1) heq
  rw [← h2]
  exact h o ho

theorem metaEq_flushed {outs2 outs : List OutputProxy}
    (hm : outs2.map outMeta = outs.map outMeta) :
    outs2.map OutputProxy.flushed = outs.map OutputProxy.flushed := by
  have key : ∀ l : List OutputProxy,
      l.map OutputProxy.flushed = (l.map outMeta).map (fun m => m.2.2.2) := by
    intro l
    rw [List.map_map]
    rfl
  rw [key, key, hm]

theorem regInputs_ends :
    ∀ (ins : List InputProxy) (idx : Nat) (bs : BlockGuard),
      (regInputs ins idx bs).1.map InputProxy.ends = ins.map InputProxy.ends := by
  intro ins
  induction ins with
  | nil => intro idx bs; rfl
  | cons inp rest ih =>
    intro idx bs
    unfold regInputs
    by_cases hf : bs.flags.getD idx false
    · rw [if_pos hf]
      simp only [List.map_cons]
      rw [ih]
    · rw [if_neg hf]
      simp only [List.map_cons]
      rw [ih]

theorem regBlocksOne_ends :
    ∀ (bss : List BlockGuard) (ins : List InputProxy),
      (regBlocksOne ins bss).1.map InputProxy.ends = ins.map InputProxy.ends := by
  intro bss
  induction bss with
  | nil => intro ins; rfl
  | cons bs rest ih =>
    intro ins
    unfold regBlocksOne
    simp only []
    rw [ih, regInputs_ends]

theorem registerBlocks_ok :
    ∀ (outs : List OutputProxy) (ins : List InputProxy),
      (registerBlocks ins outs).1.map InputProxy.ends = ins.map InputProxy.ends ∧
      (registerBlocks ins outs).2.map outMeta = outs.map outMeta := by
  intro outs
  induction outs with
  | nil => intro ins; exact ⟨rfl, rfl⟩
  | cons o rest ih =>
    intro ins
    unfold registerBlocks
    simp only [List.map_cons]
    obtain ⟨ih1, ih2⟩ := ih (regBlocksOne ins o.blocks).1
    constructor
    · rw [ih1, regBlocksOne_ends]
    · rw [ih2]
      rfl

theorem on_notify_meta (notify : DefaultNotify) (n : EndScope) (outs : List OutputProxy)
    (hok : ∀ o ∈ outs, o.notify_err = none) :
    (DefaultNotifyOperator.on_notify notify n outs).1 = none ∧
    (DefaultNotifyOperator.on_notify notify n outs).2.2.1.map outMeta = outs.map outMeta := by
  unfold DefaultNotifyOperator.on_notify
  by_cases hie : outs.isEmpty
  · rw [if_pos hie]
    exact ⟨rfl, rfl⟩
  · rw [if_neg hie]
    simp only []
    constructor
    · split
      · exact (notifySeq_ok _ _ _ hok).1
      · rfl
    · split
      · exact (notifySeq_ok _ _ _ hok).2.2.2
      · rfl

theorem drainEnds_ok :
    ∀ (ends : List (Tag × Weight)) (notify : DefaultNotify) (port : Nat)
      (outs : List OutputProxy), (∀ o ∈ outs, o.notify_err = none) →
      (drainEnds notify port ends outs).1 = none ∧
      (drainEnds notify port ends outs).2.2.1 = [] ∧
      (drainEnds notify port ends outs).2.2.2.map outMeta = outs.map outMeta := by
  intro ends
  induction ends with
  | nil => intro notify port outs hok; exact ⟨rfl, rfl, rfl⟩
  | cons tw rest ih =>
    intro notify port outs hok
    obtain ⟨t, w⟩ := tw
    have hono := on_notify_meta notify { port := port, tag := t, weight := w } outs hok
    unfold drainEnds
    simp only []
    rw [if_pos hono.1]
    obtain ⟨ih1, ih2, ih3⟩ := ih
      (DefaultNotifyOperator.on_notify notify { port := port, tag := t, weight := w } outs).2.1
      port
      (DefaultNotifyOperator.on_notify notify { port := port, tag := t, weight := w } outs).2.2.1
      (metaEq_notify_err hono.2 hok)
    exact ⟨ih1, ih2, by rw [ih3, hono.2]⟩

theorem drainAll_ok :
    ∀ (ins : List InputProxy) (notify : DefaultNotify) (port : Nat)
      (outs : List OutputProxy), (∀ o ∈ outs, o.notify_err = none) →
      (drainAll notify port ins outs).1 = none ∧
      (drainAll notify port ins outs).2.2.1.map InputProxy.ends =
        List.replicate ins.length [] ∧
      (drainAll notify port ins outs).2.2.2.map outMeta = outs.map outMeta := by
  intro ins
  induction ins with
  | nil => intro notify port outs hok; exact ⟨rfl, rfl, rfl⟩
  | cons inp rest ih =>
    intro notify port outs hok
    have hde := drainEnds_ok inp.ends notify port outs hok
    unfold drainAll
    simp only []
    rw [if_pos hde.1]
    obtain ⟨ih1, ih2, ih3⟩ := ih (drainEnds notify port inp.ends outs).2.1 (port + 1)
      (drainEnds notify port inp.ends outs).2.2.2
      (metaEq_notify_err hde.2.2 hok)
    refine ⟨ih1, ?_, by rw [ih3, hde.2.2]⟩
    simp only [List.map_cons, List.length_cons, List.replicate_succ]
    rw [ih2]
    simp [hde.2.1]

theorem flushAll_ok :
    ∀ (outs : List OutputProxy), (∀ o ∈ outs, o.flush_err = none) →
      (flushAll outs).1 = none ∧
      (flushAll outs).2.map OutputProxy.flushed = outs.map (fun o => o.flushed + 1) := by
  intro outs
  induction outs with
  | nil => intro h; exact ⟨rfl, rfl⟩
  | cons o rest ih =>
    intro h
    unfold flushAll
    rw [if_pos (h o (List.mem_cons_self o rest))]
    obtain ⟨ih1, ih2⟩ := ih (fun o2 ho2 => h o2 (List.mem_cons_of_mem o ho2))
    exact ⟨ih1, by simp only [List.map_cons]; rw [ih2]⟩

theorem fireRest_ok (op : Operator) (r : Option JobExecError)
    (hnok : ∀ o ∈ op.outputs, o.notify_err = none)
    (hfok : ∀ o ∈ op.outputs, o.flush_err = none) :
    (op.fireRest r).1 = r ∧
    (op.fireRest r).2.inputs.map InputProxy.ends = List.replicate op.inputs.length [] ∧
    (op.fireRest r).2.outputs.map OutputProxy.flushed =
      op.outputs.map (fun o => o.flushed + 1) := by
  have hd := drainAll_ok op.inputs op.notify 0 op.outputs hnok
  have hf := flushAll_ok (drainAll op.notify 0 op.inputs op.outputs).2.2.2
    (metaEq_flush_err hd.2.2 hfok)
  unfold Operator.fireRest
  simp only []
  rw [if_pos hd.1]
  try simp only []
  rw [if_pos hf.1]
  refine ⟨rfl, hd.2.1, ?_⟩
  have key : ∀ l : List OutputProxy,
      l.map (fun o => o.flushed + 1) = (l.map OutputProxy.flushed).map (fun x => x + 1) := by
    intro l
    rw [List.map_map]
    rfl
  show (flushAll (drainAll op.notify 0 op.inputs op.outputs).2.2.2).2.map
      OutputProxy.flushed = op.outputs.map (fun o => o.flushed + 1)
  rw [hf.2, key, key, metaEq_flushed hd.2.2]

theorem fireRest_state_indep (op : Operator) (r1 r2 : Option JobExecError) :
    (op.fireRest r1).2 = (op.fireRest r2).2 := by
  unfold Operator.fireRest
  simp only []
  repeat' split
  all_goals rfl

theorem fireBody_retryable_eq (op : Operator) (err : JobExecError)
    (hu : firstUnblockErr op.outputs = none) (hret : err.retryable = true) :
    op.fireBody (some err) =
      Operator.fireRest
        { inputs := (registerBlocks op.inputs op.outputs).1,
          outputs := (registerBlocks op.inputs op.outputs).2,
          notify := op.notify, fire_times := op.fire_times + 1, exec_st := op.exec_st }
        (some err) := by
  unfold Operator.fireBody
  simp only []
  rw [if_pos hu]
  try simp only []
  rw [if_pos hret]

theorem fireBody_none_eq (op : Operator)
    (hu : firstUnblockErr op.outputs = none) :
    op.fireBody none =
      Operator.fireRest
        { inputs := (registerBlocks op.inputs op.outputs).1,
          outputs := (registerBlocks op.inputs op.outputs).2,
          notify := op.notify, fire_times := op.fire_times + 1, exec_st := op.exec_st }
        none := by
  unfold Operator.fireBody
  simp only []
  rw [if_pos hu]

/-- C5: a `fire` whose computation outcome is a retryable error — with the
boundary calls succeeding — still drains every pending end-of-stream record
from every input through the notification path, still flushes every output
exactly once, returns that same retryable error, and leaves the operator in
exactly the state a successful quantum would have left. -/
theorem fire_retryable_still_drains_and_flushes (op : Operator) (err : JobExecError)
    (elapsed : Nat) (hret : err.retryable = true) (hok : outputsOk op.outputs) :
    (op.fire (some err) elapsed).1 = some err ∧
    (op.fire (some err) elapsed).2.inputs.map InputProxy.ends =
      List.replicate op.inputs.length [] ∧
    (op.fire (some err) elapsed).2.outputs.map OutputProxy.flushed =
      op.outputs.map (fun o => o.flushed + 1) ∧
    (op.fire (some err) elapsed).2 = (op.fire none elapsed).2 := by
  have hu : firstUnblockErr op.outputs = none :=
    firstUnblockErr_of_ok _ (fun o ho => (hok o ho).1)
  have hreg := registerBlocks_ok op.outputs op.inputs
  set op2 : Operator :=
    { inputs := (registerBlocks op.inputs op.outputs).1,
      outputs := (registerBlocks op.inputs op.outputs).2,
      notify := op.notify, fire_times := op.fire_times + 1, exec_st := op.exec_st }
    with hop2
  have hbody := fireBody_retryable_eq op err hu hret
  have hbody0 := fireBody_none_eq op hu
  have hmeta2 : op2.outputs.map outMeta = op.outputs.map outMeta := by
    rw [hop2]
    exact hreg.2
  have hnok2 : ∀ o ∈ op2.outputs, o.notify_err = none :=
    metaEq_notify_err hmeta2 (fun o ho => (hok o ho).2.1)
  have hfok2 : ∀ o ∈ op2.outputs, o.flush_err = none :=
    metaEq_flush_err hmeta2 (fun o ho => (hok o ho).2.2)
  have hfr := fireRest_ok op2 (some err) hnok2 hfok2
  have hlen2 : op2.inputs.length = op.inputs.length := by
    have h1 : op2.inputs.map InputProxy.ends = op.inputs.map InputProxy.ends := by
      rw [hop2]
      exact hreg.1
    have h2 := congrArg List.length h1
    simpa using h2
  refine ⟨?_, ?_, ?_, ?_⟩
  · unfold Operator.fire
    simp only []
    rw [hbody]
    exact hfr.1
  · unfold Operator.fire
    simp only []
    rw [hbody]
    show (op2.fireRest (some err)).2.inputs.map InputProxy.ends =
      List.replicate op.inputs.length []
    rw [hfr.2.1, hlen2]
  · unfold Operator.fire
    simp only []
    rw [hbody]
    show (op2.fireRest (some err)).2.outputs.map OutputProxy.flushed =
      op.outputs.map (fun o => o.flushed + 1)
    rw [hfr.2.2]
    have key : ∀ l : List OutputProxy,
        l.map (fun o => o.flushed + 1) = (l.map OutputProxy.flushed).map (fun x => x + 1) := by
      intro l
      rw [List.map_map]
      rfl
    rw [key, key, metaEq_flushed hmeta2]
  · unfold Operator.fire
    simp only []
    rw [hbody, hbody0, fireRest_state_indep op2 (some err) none]

/-- Witness for C5: one input holding a pending end-of-stream record, one
fresh output, a retryable error from the computation. -/
theorem fire_retryable_still_drains_and_flushes_witness :
    errRetry.retryable = true ∧ outputsOk opW.outputs ∧
    (opW.fire (some errRetry) 0).1 = some errRetry ∧
    (opW.fire (some errRetry) 0).2.inputs.map InputProxy.ends =
      List.replicate opW.inputs.length [] ∧
    (opW.fire (some errRetry) 0).2.outputs.map OutputProxy.flushed =
      opW.outputs.map (fun o => o.flushed + 1) ∧
    (opW.fire (some errRetry) 0).2 = (opW.fire none 0).2 := by
  have h := fire_retryable_still_drains_and_flushes opW errRetry 0 (by decide) (by decide)
  exact ⟨by decide, by decide, h.1, h.2.1, h.2.2.1, h.2.2.2⟩
